import Mathlib

/-!
# Speed-chat backend: state synchronization core

A shallow embedding of `src/backend/app.py` and `src/backend/database.py`:
the single shared document (Config singleton + named Lines each owning
People + a flat General Wait Queue), the process-wide version counter used
for optimistic-concurrency conflict detection, and the REST / push-channel
handlers built on `save_state_to_db` / `get_state_from_db`.

Modelling conventions:
* The database is a value of `DBState`: the optional Config row, the Line,
  Person and GeneralWaitQueue rows, and one surrogate-id allocator per
  table (SQLAlchemy integer primary keys).
* A whole call to `save_state_to_db` is one transaction: the Lean function
  returns `Except`; on the error path (version conflict, or the final
  `db.commit()` failing) the Python session is rolled back, so the callers
  simply keep the pre-call `DBState` and version counter.
* Whether `db.commit()` succeeds is a Boolean parameter `commitOk`.
* `created_at` timestamps on rows are irrelevant to every property below
  and are omitted; the `timestamp` field of the returned document is an
  explicit parameter `ts` (Python `time.time()`).
* Python dicts built by comprehension (`{line.name: line}`, `{p.id: p}`)
  are modelled as association lists with last-insert-wins overwrite.
-/

namespace SpeedChat

/-- The `config` table row (`database.py`, class `Config`).  All columns are
strings except `blink_before_start`; column defaults as in the source. -/
structure Config where
  session_duration : String
  alarm_interval : String
  max_people_per_line : String
  blink_before_start : Bool
  blink_time : String
  finish_window : String
  auto_reschedule : String
  deriving DecidableEq, Repr

/-- A fresh `Config()` row with the column defaults of `database.py`. -/
def defaultConfig : Config :=
  { session_duration := "30"
    alarm_interval := "5"
    max_people_per_line := "10"
    blink_before_start := false
    blink_time := "5"
    finish_window := "5"
    auto_reschedule := "off" }

/-- The `lines` table row (`database.py`, class `Line`). -/
structure Line where
  id : Nat
  name : String
  time : String
  deriving DecidableEq, Repr

/-- The `people` table row (`database.py`, class `Person`); `line_id` is the
foreign key to its Line, whose ORM relationship carries
`cascade="all, delete-orphan"`. -/
structure Person where
  id : Nat
  line_id : Nat
  name : String
  deriving DecidableEq, Repr

/-- The `general_wait_queue` table row (`database.py`, class
`GeneralWaitQueue`). -/
structure GeneralWaitQueue where
  id : Nat
  name : String
  deriving DecidableEq, Repr

/-- The durable store: the rows of the four tables plus the surrogate-id
allocator of each table with an autoincrement primary key that the code
inserts into. -/
structure DBState where
  config : Option Config
  lines : List Line
  people : List Person
  general_wait_queue : List GeneralWaitQueue
  next_line_id : Nat
  next_person_id : Nat
  next_gwq_id : Nat
  deriving DecidableEq, Repr

/-- A person entry of an incoming payload: `{"id": ..., "name": ...}`.
`app.py` reads both keys with mandatory indexing (`person_data["id"]`,
`person_data["name"]`). -/
structure PersonData where
  id : Nat
  name : String
  deriving DecidableEq, Repr

/-- A line entry of an incoming payload; `name` and `time` are read by
mandatory indexing, `people` by `line_data.get("people", [])`. -/
structure LineData where
  name : String
  time : String
  people : Option (List PersonData)
  deriving DecidableEq, Repr

/-- The config body of an incoming payload; every key is read with
`config_data.get(key, default)`, so each is optional. -/
structure ConfigData where
  sessionDuration : Option String
  alarmInterval : Option String
  maxPeoplePerLine : Option String
  blinkBeforeStart : Option Bool
  blinkTime : Option String
  finishWindow : Option String
  autoReschedule : Option String
  lines : Option (List LineData)
  generalWaitQueue : Option (List PersonData)
  deriving DecidableEq, Repr

/-- The empty dict `{}` read as a config body: every `get` falls back to
its default. -/
def ConfigData.empty : ConfigData :=
  { sessionDuration := none
    alarmInterval := none
    maxPeoplePerLine := none
    blinkBeforeStart := none
    blinkTime := none
    finishWindow := none
    autoReschedule := none
    lines := none
    generalWaitQueue := none }

/-- An incoming top-level payload.  `app.py` reads only `state.get("config")`
and `state.get("version")`; `toplevel` records the remaining top-level keys
of the JSON object viewed as a config body (they are config-shaped in the
pre-`config`-wrapping client format), which the code ignores. -/
structure StateData where
  version : Option Int
  config : Option ConfigData
  toplevel : ConfigData
  deriving DecidableEq, Repr

/-- `app.py` lines 133-139: each config column is assigned
`config_data.get(key, default)` — a present value is stored verbatim, an
absent key falls back to the hard-coded default. -/
def configOfData (cd : ConfigData) : Config :=
  { session_duration := cd.sessionDuration.getD "30"
    alarm_interval := cd.alarmInterval.getD "5"
    max_people_per_line := cd.maxPeoplePerLine.getD "10"
    blink_before_start := cd.blinkBeforeStart.getD false
    blink_time := cd.blinkTime.getD "5"
    finish_window := cd.finishWindow.getD "5"
    auto_reschedule := cd.autoReschedule.getD "off" }

/-- Python dict insertion `d[k] = v` on an association list: overwrite the
existing binding in place, else append. -/
def dictInsert (d : List (String × Line)) (k : String) (v : Line) :
    List (String × Line) :=
  if d.any (fun e => e.1 == k) then
    d.map (fun e => if e.1 == k then (k, v) else e)
  else d ++ [(k, v)]

/-- `{line.name: line for line in db.query(Line).all()}` (`app.py` line 142):
later lines overwrite earlier ones sharing a name. -/
def linesDict (ls : List Line) : List (String × Line) :=
  ls.foldl (fun d l => dictInsert d l.name l) []

/-- Dict lookup `d.get(k)`. -/
def dictGet (d : List (String × Line)) (k : String) : Option Line :=
  (d.find? (fun e => e.1 == k)).map (fun e => e.2)

/-- `db.delete(line)` with the `cascade="all, delete-orphan"` relationship:
the line row and every person row referencing it are removed. -/
def deleteLineCascade (db : DBState) (lid : Nat) : DBState :=
  { db with
    lines := db.lines.filter (fun l => l.id != lid)
    people := db.people.filter (fun p => p.line_id != lid) }

/-- `app.py` lines 146-148: for each name in the captured dict, if no
incoming line carries that name, delete the dict's line for it. -/
def deleteStaleLines (db : DBState) (dict : List (String × Line))
    (new_lines : List LineData) : DBState :=
  dict.foldl
    (fun db e =>
      if new_lines.any (fun ld => ld.name == e.1) then db
      else deleteLineCascade db e.2.id) db

/-- `app.py` lines 159-172 for a line already in the database: capture
`existing_people = {p.id: p for p in line.people}` (person ids are primary
keys, so the dict is the list of that line's people keyed by id), delete
the existing people whose id no incoming entry carries, then append a fresh
`Person` row (fresh surrogate id, name from the payload) for each incoming
entry whose id is not among the captured existing ids. -/
def reconcileLinePeople (db : DBState) (lid : Nat)
    (new_people : List PersonData) : DBState :=
  let existing := db.people.filter (fun p => p.line_id == lid)
  let db1 : DBState :=
    { db with
      people := db.people.filter (fun p =>
        p.line_id != lid || new_people.any (fun nd => nd.id == p.id)) }
  new_people.foldl
    (fun db pd =>
      if existing.any (fun e => e.id == pd.id) then db
      else
        { db with
          people :=
            db.people ++ [{ id := db.next_person_id, line_id := lid, name := pd.name }]
          next_person_id := db.next_person_id + 1 }) db1

/-- The people loop for a freshly created line: its `line.people` collection
is empty, so the delete loop is a no-op and every incoming entry is
inserted as a fresh `Person` row. -/
def addAllPeople (db : DBState) (lid : Nat) (new_people : List PersonData) :
    DBState :=
  new_people.foldl
    (fun db pd =>
      { db with
        people :=
          db.people ++ [{ id := db.next_person_id, line_id := lid, name := pd.name }]
        next_person_id := db.next_person_id + 1 }) db

/-- `app.py` lines 151-172, one iteration: look the incoming name up in the
dict captured before the delete phase; on a hit, overwrite that line's
`time` and reconcile its people; on a miss, insert a fresh `Line` row and
add all incoming people to it. -/
def upsertLine (dict : List (String × Line)) (db : DBState) (ld : LineData) :
    DBState :=
  match dictGet dict ld.name with
  | some l =>
      let db1 : DBState :=
        { db with
          lines := db.lines.map (fun x =>
            if x.id == l.id then { x with time := ld.time } else x) }
      reconcileLinePeople db1 l.id (ld.people.getD [])
  | none =>
      let lid := db.next_line_id
      let db1 : DBState :=
        { db with
          lines := db.lines ++ [{ id := lid, name := ld.name, time := ld.time }]
          next_line_id := lid + 1 }
      addAllPeople db1 lid (ld.people.getD [])

/-- `app.py` lines 174-187: the general wait queue is reconciled by id
exactly like a line's people — delete unmatched existing rows, insert a
fresh row (fresh surrogate id) for each incoming entry whose id is not
among the captured existing ids. -/
def reconcileWaitQueue (db : DBState) (new_wait_queue : List PersonData) :
    DBState :=
  let existing := db.general_wait_queue
  let db1 : DBState :=
    { db with
      general_wait_queue := db.general_wait_queue.filter (fun p =>
        new_wait_queue.any (fun nd => nd.id == p.id)) }
  new_wait_queue.foldl
    (fun db pd =>
      if existing.any (fun e => e.id == pd.id) then db
      else
        { db with
          general_wait_queue :=
            db.general_wait_queue ++ [{ id := db.next_gwq_id, name := pd.name }]
          next_gwq_id := db.next_gwq_id + 1 }) db1

/-- The body of the `try` block of `save_state_to_db` (`app.py` lines
124-188): take `config_data = state.get("config", {})` — the default is the
EMPTY dict, not the rest of the payload — overwrite (or create) the Config
row from it, delete stale lines, upsert the incoming lines, and reconcile
the general wait queue. -/
def applyStateDiff (state : StateData) (db : DBState) : DBState :=
  let config_data := state.config.getD ConfigData.empty
  let db1 : DBState := { db with config := some (configOfData config_data) }
  let new_lines := config_data.lines.getD []
  let existing_lines := linesDict db1.lines
  let db2 := deleteStaleLines db1 existing_lines new_lines
  let db3 := new_lines.foldl (upsertLine existing_lines) db2
  reconcileWaitQueue db3 (config_data.generalWaitQueue.getD [])

/-- The config body the code reconciles against: `state.get("config", {})`
(`app.py` line 125) — the default is the empty dict. -/
def codeConfigBody (state : StateData) : ConfigData :=
  state.config.getD ConfigData.empty

/-- Modelled from the spec (§4.3 edge cases): "an incoming document with no
`config` key is treated as if the entire payload were the config body" —
under this reading, the remaining top-level keys of the payload are the
config body.  Stated for comparison with `codeConfigBody`. -/
def specConfigBody (state : StateData) : ConfigData :=
  match state.config with
  | some cd => cd
  | none => state.toplevel

/-- The message of the `ValueError` raised on a version conflict. -/
def conflictMessage : String :=
  "State is outdated. Please refresh and try again."

/-- The failure modes of one `save_state_to_db` call. -/
inductive SaveError where
  | conflict (message : String)
  | storage
  deriving DecidableEq, Repr

/-- `app.py` line 118: `client_version is not None and
client_version < current_state_version - 5` (Python ints, so over ℤ). -/
def versionConflict (client_version : Option Int) (ver : Nat) : Bool :=
  match client_version with
  | some cv => cv < (ver : Int) - 5
  | none => false

/-- `save_state_to_db(state, db, client_version)` (`app.py` lines 113-198)
against database `db` and version counter `ver`: raise the conflict
`ValueError` before touching anything if the claimed version is more than 5
behind; otherwise apply the diff and commit.  If the commit fails
(`commitOk = false`) the session is rolled back and the error re-raised, so
no new state is produced; on success the global version counter is
incremented by one. -/
def save_state_to_db (state : StateData) (db : DBState) (ver : Nat)
    (client_version : Option Int) (commitOk : Bool) :
    Except SaveError (DBState × Nat) :=
  if versionConflict client_version ver then
    .error (.conflict conflictMessage)
  else if commitOk then
    .ok (applyStateDiff state db, ver + 1)
  else .error .storage

/-- The reconciliation as the spec's wrapping sentence describes it:
identical to `applyStateDiff` except that a payload with no `config` key is
reconciled against its top-level keys as the config body.  Modelled from
the spec, for comparison with the code's behavior. -/
def applyStateDiffSpecWrap (state : StateData) (db : DBState) : DBState :=
  applyStateDiff
    { version := state.version, config := some (specConfigBody state)
      toplevel := state.toplevel } db

/-- A person of the returned document: `{"id": ..., "name": ...}`. -/
structure PersonOut where
  id : Nat
  name : String
  deriving DecidableEq, Repr

/-- A line of the returned document. -/
structure LineOut where
  id : Nat
  name : String
  time : String
  people : List PersonOut
  deriving DecidableEq, Repr

/-- The `config` sub-dict of the returned document (`app.py` lines 96-106). -/
structure ConfigOut where
  sessionDuration : String
  alarmInterval : String
  maxPeoplePerLine : String
  blinkBeforeStart : Bool
  blinkTime : String
  finishWindow : String
  autoReschedule : String
  lines : List LineOut
  generalWaitQueue : List PersonOut
  deriving DecidableEq, Repr

/-- The document returned by `get_state_from_db` (`app.py` lines 93-107). -/
structure StateDoc where
  version : Nat
  timestamp : Nat
  config : ConfigOut
  deriving DecidableEq, Repr

/-- `lines_data` of `get_state_from_db` (`app.py` lines 71-84): every line
row with its people (`line.people` is the set of person rows whose
`line_id` references it). -/
def linesOut (db : DBState) : List LineOut :=
  db.lines.map (fun l =>
    { id := l.id
      name := l.name
      time := l.time
      people := (db.people.filter (fun p => p.line_id == l.id)).map
        (fun p => { id := p.id, name := p.name : PersonOut }) })

/-- `wait_queue_data` of `get_state_from_db` (`app.py` lines 87-90). -/
def waitQueueOut (db : DBState) : List PersonOut :=
  db.general_wait_queue.map (fun p => { id := p.id, name := p.name : PersonOut })

/-- The dict returned by `get_state_from_db` (`app.py` lines 93-107), built
from a Config row `c` and the current rows of `db`. -/
def docOf (c : Config) (db : DBState) (ver : Nat) (ts : Nat) : StateDoc :=
  ⟨ver, ts,
    { sessionDuration := c.session_duration
      alarmInterval := c.alarm_interval
      maxPeoplePerLine := c.max_people_per_line
      blinkBeforeStart := c.blink_before_start
      blinkTime := c.blink_time
      finishWindow := c.finish_window
      autoReschedule := c.auto_reschedule
      lines := linesOut db
      generalWaitQueue := waitQueueOut db }⟩

/-- `get_state_from_db(db)` (`app.py` lines 60-107): if no Config row exists
one is created with column defaults and committed; the current lines (each
with its people), the wait queue, the version counter (never incremented on
reads) and a timestamp are returned as one document.  Returns the document
together with the database state after the call. -/
def get_state_from_db (db : DBState) (ver : Nat) (ts : Nat) :
    StateDoc × DBState :=
  match db.config with
  | some c => (docOf c db ver ts, db)
  | none =>
      let db1 : DBState := { db with config := some defaultConfig }
      (docOf defaultConfig db1 ver ts, db1)

/-- The JSON body (plus HTTP status) answered by `POST /state`
(`app.py` lines 213-230): `status` is `"success"`, `"conflict"` or
`"error"`; `state` is present only on success — the conflict and error
bodies carry only a `message`. -/
structure PostResp where
  httpStatus : Nat
  status : String
  message : Option String
  state : Option StateDoc
  deriving DecidableEq, Repr

/-- `update_state` (`app.py` lines 213-230): run `save_state_to_db` with the
payload's top-level `version` as the claimed version; on success reload and
answer `{"status": "success", "state": ...}`; on the conflict `ValueError`
answer 409 `{"status": "conflict", "message": str(e)}`; on any other
exception answer 500.  Returns the response with the resulting database and
version counter. -/
def update_state (state : StateData) (db : DBState) (ver : Nat) (ts : Nat)
    (commitOk : Bool) : PostResp × DBState × Nat :=
  match save_state_to_db state db ver state.version commitOk with
  | .ok (db1, ver1) =>
      let r := get_state_from_db db1 ver1 ts
      ({ httpStatus := 200, status := "success", message := none,
         state := some r.1 }, r.2, ver1)
  | .error (.conflict msg) =>
      ({ httpStatus := 409, status := "conflict", message := some msg,
         state := none }, db, ver)
  | .error .storage =>
      ({ httpStatus := 500, status := "error",
         message := some "storage error", state := none }, db, ver)

/-- The response of `GET /state` (`app.py` lines 201-210). -/
structure GetResp where
  httpStatus : Nat
  state : Option StateDoc
  deriving DecidableEq, Repr

/-- `get_state` (`app.py` lines 201-210): read the current document and
answer it; the version counter is returned untouched. -/
def get_state (db : DBState) (ver : Nat) (ts : Nat) :
    GetResp × DBState × Nat :=
  let r := get_state_from_db db ver ts
  ({ httpStatus := 200, state := some r.1 }, r.2, ver)

/-- The event a socket handler emits. -/
inductive SocketEmit where
  | state_updated (doc : StateDoc)
  | state_conflict (message : String)
  | state_error (message : String)
  deriving DecidableEq, Repr

/-- `handle_get_state` (`app.py` lines 255-265): the pull request — read the
current document and emit `state_updated`. -/
def handle_get_state (db : DBState) (ver : Nat) (ts : Nat) :
    SocketEmit × DBState × Nat :=
  let r := get_state_from_db db ver ts
  (.state_updated r.1, r.2, ver)

/-- `handle_connect` (`app.py` lines 233-247): a new subscriber immediately
receives the current document. -/
def handle_connect (db : DBState) (ver : Nat) (ts : Nat) :
    SocketEmit × DBState × Nat :=
  let r := get_state_from_db db ver ts
  (.state_updated r.1, r.2, ver)

/-- `handle_state_saved` (`app.py` lines 268-285): the push-channel save —
like `update_state`, but the outcome is emitted as a socket event:
`state_updated` with the reloaded document on success, `state_conflict`
with only the `ValueError` message on a version conflict, `state_error` on
any other failure. -/
def handle_state_saved (state : StateData) (db : DBState) (ver : Nat)
    (ts : Nat) (commitOk : Bool) : SocketEmit × DBState × Nat :=
  match save_state_to_db state db ver state.version commitOk with
  | .ok (db1, ver1) =>
      let r := get_state_from_db db1 ver1 ts
      (.state_updated r.1, r.2, ver1)
  | .error (.conflict msg) => (.state_conflict msg, db, ver)
  | .error .storage => (.state_error "Failed to save state", db, ver)

/-- The fresh `Line` rows the upsert loop inserts: one per incoming line
whose name misses the captured dict, surrogate ids allocated consecutively
from `n`. -/
def freshLines (dict : List (String × Line)) (ds : List LineData) (n : Nat) :
    List Line :=
  match ds with
  | [] => []
  | ld :: t =>
    match dictGet dict ld.name with
    | some _ => freshLines dict t n
    | none => ⟨n, ld.name, ld.time⟩ :: freshLines dict t (n + 1)

/-- The fresh `Person` rows one people loop inserts: one per incoming entry
whose id is not among the captured existing ids, surrogate ids allocated
consecutively from `n`, all referencing line `lid`. -/
def addedPeople (existing : List Person) (ps : List PersonData)
    (lid n : Nat) : List Person :=
  match ps with
  | [] => []
  | pd :: t =>
    if existing.any (fun e => e.id == pd.id) then addedPeople existing t lid n
    else ⟨n, lid, pd.name⟩ :: addedPeople existing t lid (n + 1)

/-- The fresh `GeneralWaitQueue` rows the wait-queue loop inserts. -/
def addedGwq (existing : List GeneralWaitQueue) (ps : List PersonData)
    (n : Nat) : List GeneralWaitQueue :=
  match ps with
  | [] => []
  | pd :: t =>
    if existing.any (fun e => e.id == pd.id) then addedGwq existing t n
    else ⟨n, pd.name⟩ :: addedGwq existing t (n + 1)

/-- The `time` a stored line ends up with after the upsert loop: overwritten
with the matching incoming line's `time` when one exists. -/
def updTime (ds : List LineData) (x : Line) : Line :=
  match ds.find? (fun ld => ld.name == x.name) with
  | some ld => { x with time := ld.time }
  | none => x

/-- The invariant carried through the upsert loop: incoming and stored line
names are duplicate-free, primary keys are unique and below the
allocators, person rows reference allocated line ids, and the captured
dict answers name lookups exactly as a scan of the current line rows
would. -/
structure FoldInv (dict : List (String × Line)) (ds : List LineData)
    (db : DBState) : Prop where
  ds_names_nodup : (ds.map (fun ld => ld.name)).Nodup
  lines_names_nodup : (db.lines.map (fun l => l.name)).Nodup
  lines_ids_nodup : (db.lines.map (fun l => l.id)).Nodup
  lines_id_lt : ∀ l ∈ db.lines, l.id < db.next_line_id
  people_ids_nodup : (db.people.map (fun p => p.id)).Nodup
  people_id_lt : ∀ p ∈ db.people, p.id < db.next_person_id
  people_line_lt : ∀ p ∈ db.people, p.line_id < db.next_line_id
  dict_find : ∀ ld ∈ ds,
    dictGet dict ld.name = db.lines.find? (fun x => x.name == ld.name)

/-- Well-formedness of the store: primary keys are unique and below their
table's allocator, and person rows reference already-allocated line ids.
Every store the code can reach satisfies this. -/
structure DBState.WF (db : DBState) : Prop where
  lines_ids_nodup : (db.lines.map (fun l => l.id)).Nodup
  lines_id_lt : ∀ l ∈ db.lines, l.id < db.next_line_id
  people_ids_nodup : (db.people.map (fun p => p.id)).Nodup
  people_id_lt : ∀ p ∈ db.people, p.id < db.next_person_id
  people_line_lt : ∀ p ∈ db.people, p.line_id < db.next_line_id
  gwq_ids_nodup : (db.general_wait_queue.map (fun g => g.id)).Nodup
  gwq_id_lt : ∀ g ∈ db.general_wait_queue, g.id < db.next_gwq_id

/-! ## Concrete fixtures used by witnesses and counterexamples -/

/-- A fresh database: no Config row yet, no rows, all allocators at 1. -/
def emptyDB : DBState :=
  { config := none, lines := [], people := [], general_wait_queue := []
    next_line_id := 1, next_person_id := 1, next_gwq_id := 1 }

/-- A database holding one line "A" with one person Alice (id 1). -/
def dbA : DBState :=
  { config := some defaultConfig
    lines := [{ id := 1, name := "A", time := "t" }]
    people := [{ id := 1, line_id := 1, name := "Alice" }]
    general_wait_queue := []
    next_line_id := 2, next_person_id := 2, next_gwq_id := 1 }

/-- A payload whose config body is the empty dict. -/
def payloadEmpty : StateData :=
  { version := none, config := some ConfigData.empty
    toplevel := ConfigData.empty }

/-- The payload `payloadEmpty` with claimed version 4. -/
def payloadV4 : StateData :=
  { version := some 4, config := some ConfigData.empty
    toplevel := ConfigData.empty }

/-! ## Frame lemmas: what each reconciliation phase leaves untouched -/

theorem foldl_frame {α β : Type} (f : DBState → α → DBState) (g : DBState → β)
    (hf : ∀ db a, g (f db a) = g db) :
    ∀ (l : List α) (db : DBState), g (l.foldl f db) = g db := by
  intro l
  induction l with
  | nil => intro db; rfl
  | cons a t ih => intro db; rw [List.foldl_cons, ih, hf]

theorem deleteStaleLines_config (db : DBState) (dict : List (String × Line))
    (ds : List LineData) : (deleteStaleLines db dict ds).config = db.config := by
  unfold deleteStaleLines
  exact foldl_frame _ (fun d => d.config)
    (fun db e => by dsimp only; split <;> rfl) dict db

theorem reconcileLinePeople_config (db : DBState) (lid : Nat)
    (ps : List PersonData) : (reconcileLinePeople db lid ps).config = db.config := by
  unfold reconcileLinePeople
  exact (foldl_frame _ (fun d => d.config)
    (fun db pd => by dsimp only; split <;> rfl) ps _).trans rfl

theorem addAllPeople_config (db : DBState) (lid : Nat) (ps : List PersonData) :
    (addAllPeople db lid ps).config = db.config := by
  unfold addAllPeople
  exact foldl_frame _ (fun d => d.config) (fun db pd => by dsimp only) ps db

theorem upsertLine_config (dict : List (String × Line)) (db : DBState)
    (ld : LineData) : (upsertLine dict db ld).config = db.config := by
  unfold upsertLine
  rcases dictGet dict ld.name with _ | l
  · exact addAllPeople_config _ _ _
  · exact reconcileLinePeople_config _ _ _

theorem upsertFold_config (dict : List (String × Line)) (ds : List LineData)
    (db : DBState) : (ds.foldl (upsertLine dict) db).config = db.config :=
  foldl_frame _ (fun d => d.config) (fun db ld => upsertLine_config dict db ld)
    ds db

theorem reconcileWaitQueue_config (db : DBState) (q : List PersonData) :
    (reconcileWaitQueue db q).config = db.config := by
  unfold reconcileWaitQueue
  exact (foldl_frame _ (fun d => d.config)
    (fun db pd => by dsimp only; split <;> rfl) q _).trans rfl

/-- The Config row a save stores is exactly `configOfData` of the payload's
config body (`state.get("config", {})`); no later phase touches it. -/
theorem applyStateDiff_config (state : StateData) (db : DBState) :
    (applyStateDiff state db).config =
      some (configOfData (state.config.getD ConfigData.empty)) := by
  unfold applyStateDiff
  rw [reconcileWaitQueue_config, upsertFold_config, deleteStaleLines_config]

/-- Reloading a database whose Config row is present mutates nothing. -/
theorem get_state_from_db_some (db : DBState) (c : Config) (ver ts : Nat)
    (h : db.config = some c) :
    get_state_from_db db ver ts = (docOf c db ver ts, db) := by
  unfold get_state_from_db
  rw [h]

/-! ## List and dict helpers -/

theorem eq_of_nodup_key {α κ : Type} (f : α → κ) {l : List α}
    (h : (l.map f).Nodup) {a b : α} (ha : a ∈ l) (hb : b ∈ l)
    (hf : f a = f b) : a = b :=
  List.inj_on_of_nodup_map h ha hb hf

theorem key_perm_map {κ β : Type} (f : κ → β) {A B : List κ}
    (hA : A.Nodup) (hB : B.Nodup) (hmem : ∀ k, k ∈ A ↔ k ∈ B) :
    (A.map f).Perm (B.map f) :=
  ((List.perm_ext_iff_of_nodup hA hB).2 hmem).map f

theorem find?_key_eq {α κ : Type} [BEq κ] [LawfulBEq κ] (f : α → κ)
    {l : List α} (h : (l.map f).Nodup) {a : α} (ha : a ∈ l) {n : κ}
    (hn : f a = n) : l.find? (fun y => f y == n) = some a := by
  induction l with
  | nil => cases ha
  | cons x t ih =>
    rw [List.map_cons, List.nodup_cons] at h
    rcases List.mem_cons.1 ha with rfl | hat
    · exact List.find?_cons_of_pos _ (by simp [hn])
    · rw [List.find?_cons_of_neg _ ?_]
      · exact ih h.2 hat
      · have hne : f x ≠ n := by
          intro he
          exact h.1 ((he.trans hn.symm) ▸ List.mem_map_of_mem f hat)
        simp [hne]

theorem dictInsert_of_not_mem {d : List (String × Line)} {k : String}
    {v : Line} (h : ∀ e ∈ d, e.1 ≠ k) : dictInsert d k v = d ++ [(k, v)] := by
  have hc : ¬(d.any (fun e => e.1 == k) = true) := by
    rw [List.any_eq_true]
    rintro ⟨e, he, hek⟩
    exact h e he (by simpa using hek)
  unfold dictInsert
  rw [if_neg hc]

theorem linesDict_go {ls : List Line}
    (h : (ls.map (fun l => l.name)).Nodup) :
    ∀ acc : List (String × Line), (∀ l ∈ ls, ∀ e ∈ acc, e.1 ≠ l.name) →
      ls.foldl (fun d l => dictInsert d l.name l) acc =
        acc ++ ls.map (fun l => (l.name, l)) := by
  induction ls with
  | nil =>
    intro acc _
    simp
  | cons x t ih =>
    intro acc hacc
    rw [List.map_cons, List.nodup_cons] at h
    have hx : ∀ e ∈ acc, e.1 ≠ x.name :=
      fun e he => hacc x (List.mem_cons_self x t) e he
    have hcond : ∀ l ∈ t, ∀ e ∈ acc ++ [(x.name, x)], e.1 ≠ l.name := by
      intro l hl e he
      rcases List.mem_append.1 he with hea | heb
      · exact hacc l (List.mem_cons_of_mem x hl) e hea
      · rcases List.mem_singleton.1 heb with rfl
        intro hxl
        apply h.1
        have hx2 : x.name = l.name := hxl
        rw [hx2]
        exact List.mem_map_of_mem _ hl
    rw [List.foldl_cons, dictInsert_of_not_mem hx, ih h.2 _ hcond]
    simp

theorem linesDict_eq_map {ls : List Line}
    (h : (ls.map (fun l => l.name)).Nodup) :
    linesDict ls = ls.map (fun l => (l.name, l)) := by
  have := linesDict_go h [] (by intro l _ e he; cases he)
  simpa [linesDict] using this

theorem find?_pair_map (ls : List Line) (n : String) :
    ((ls.map (fun l => (l.name, l))).find? (fun e => e.1 == n)).map
        (fun e => e.2) =
      ls.find? (fun x => x.name == n) := by
  induction ls with
  | nil => rfl
  | cons x t ih =>
    rw [List.map_cons]
    by_cases hx : (x.name == n) = true
    · have h1 : ((x.name, x) :: t.map (fun l => (l.name, l))).find?
          (fun e => e.1 == n) = some (x.name, x) :=
        List.find?_cons_of_pos _ hx
      have h2 : (x :: t).find? (fun y => y.name == n) = some x :=
        List.find?_cons_of_pos _ hx
      rw [h1, h2]
      rfl
    · have h1 : ((x.name, x) :: t.map (fun l => (l.name, l))).find?
          (fun e => e.1 == n) =
          (t.map (fun l => (l.name, l))).find? (fun e => e.1 == n) :=
        List.find?_cons_of_neg _ hx
      have h2 : (x :: t).find? (fun y => y.name == n) =
          t.find? (fun y => y.name == n) :=
        List.find?_cons_of_neg _ hx
      rw [h1, h2, ih]

theorem dictGet_linesDict {ls : List Line}
    (h : (ls.map (fun l => l.name)).Nodup) (n : String) :
    dictGet (linesDict ls) n = ls.find? (fun x => x.name == n) := by
  rw [linesDict_eq_map h]
  unfold dictGet
  exact find?_pair_map ls n

/-! ## Delete-phase characterization -/

theorem deleteStaleLines_cons (db : DBState) (e : String × Line)
    (E : List (String × Line)) (ds : List LineData) :
    deleteStaleLines db (e :: E) ds =
      deleteStaleLines
        (if ds.any (fun ld => ld.name == e.1) then db
         else deleteLineCascade db e.2.id) E ds := rfl

theorem deleteStaleLines_eq_self (ds : List LineData) :
    ∀ (E : List (String × Line)) (db : DBState),
      (∀ e ∈ E, ds.any (fun ld => ld.name == e.1)) →
      deleteStaleLines db E ds = db := by
  intro E
  induction E with
  | nil =>
    intro db _
    rfl
  | cons e E ih =>
    intro db h
    rw [deleteStaleLines_cons, if_pos (h e (List.mem_cons_self e E))]
    exact ih db (fun x hx => h x (List.mem_cons_of_mem e hx))

theorem deleteStaleLines_lines (ds : List LineData) :
    ∀ (E : List (String × Line)) (db : DBState),
      (deleteStaleLines db E ds).lines =
        db.lines.filter (fun l =>
          E.all (fun e => ds.any (fun ld => ld.name == e.1) ||
            (l.id != e.2.id))) := by
  intro E
  induction E with
  | nil =>
    intro db
    simp [deleteStaleLines]
  | cons e E ih =>
    intro db
    rw [deleteStaleLines_cons]
    by_cases hk : (ds.any (fun ld => ld.name == e.1)) = true
    · rw [if_pos hk, ih db]
      apply List.filter_congr
      intro a _
      rw [List.all_cons, hk]
      simp
    · have hk' : (ds.any (fun ld => ld.name == e.1)) = false :=
        eq_false_of_ne_true hk
      rw [if_neg hk, ih (deleteLineCascade db e.2.id)]
      show (db.lines.filter (fun l => l.id != e.2.id)).filter _ = _
      rw [List.filter_filter]
      apply List.filter_congr
      intro a _
      rw [List.all_cons, hk']
      simp [Bool.and_comm]

theorem deleteStaleLines_people (ds : List LineData) :
    ∀ (E : List (String × Line)) (db : DBState),
      (deleteStaleLines db E ds).people =
        db.people.filter (fun p =>
          E.all (fun e => ds.any (fun ld => ld.name == e.1) ||
            (p.line_id != e.2.id))) := by
  intro E
  induction E with
  | nil =>
    intro db
    simp [deleteStaleLines]
  | cons e E ih =>
    intro db
    rw [deleteStaleLines_cons]
    by_cases hk : (ds.any (fun ld => ld.name == e.1)) = true
    · rw [if_pos hk, ih db]
      apply List.filter_congr
      intro a _
      rw [List.all_cons, hk]
      simp
    · have hk' : (ds.any (fun ld => ld.name == e.1)) = false :=
        eq_false_of_ne_true hk
      rw [if_neg hk, ih (deleteLineCascade db e.2.id)]
      show (db.people.filter (fun p => p.line_id != e.2.id)).filter _ = _
      rw [List.filter_filter]
      apply List.filter_congr
      intro a _
      rw [List.all_cons, hk']
      simp [Bool.and_comm]

theorem deleteStaleLines_gwq (db : DBState) (E : List (String × Line))
    (ds : List LineData) :
    (deleteStaleLines db E ds).general_wait_queue = db.general_wait_queue := by
  unfold deleteStaleLines
  exact foldl_frame _ (fun d => d.general_wait_queue)
    (fun db e => by split <;> rfl) E db

theorem deleteStaleLines_counters (db : DBState) (E : List (String × Line))
    (ds : List LineData) :
    (deleteStaleLines db E ds).next_line_id = db.next_line_id ∧
    (deleteStaleLines db E ds).next_person_id = db.next_person_id ∧
    (deleteStaleLines db E ds).next_gwq_id = db.next_gwq_id := by
  unfold deleteStaleLines
  refine ⟨?_, ?_, ?_⟩ <;>
    exact foldl_frame _ _ (fun db e => by split <;> rfl) E db

/-- With duplicate-free stored names and ids, the delete phase keeps
exactly the lines whose name some incoming line carries.  `ls` is the
stored line list (an explicit argument so the lemma applies verbatim to a
database value whose `lines` field only reduces to it). -/
theorem deleteStaleLines_lines_nodup {db : DBState} {ls : List Line}
    {ds : List LineData} (hdb : db.lines = ls)
    (hn : (ls.map (fun l => l.name)).Nodup)
    (hi : (ls.map (fun l => l.id)).Nodup) :
    (deleteStaleLines db (linesDict ls) ds).lines =
      ls.filter (fun l => ds.any (fun ld => ld.name == l.name)) := by
  subst hdb
  rw [linesDict_eq_map hn, deleteStaleLines_lines]
  apply List.filter_congr
  intro l hl
  by_cases hk : (ds.any (fun ld => ld.name == l.name)) = true
  · rw [hk, List.all_eq_true]
    intro e he
    rcases List.mem_map.1 he with ⟨x, hx, rfl⟩
    by_cases hid : x.id = l.id
    · have hxl : x = l := eq_of_nodup_key (fun l => l.id) hi hx hl hid
      subst hxl
      simp [hk]
    · have hne : (l.id != x.id) = true := by
        simp
        omega
      simp [hne]
  · have hk' : (ds.any (fun ld => ld.name == l.name)) = false :=
      eq_false_of_ne_true hk
    rw [hk', List.all_eq_false]
    refine ⟨(l.name, l), List.mem_map_of_mem _ hl, ?_⟩
    simp [hk']

/-! ## People-loop characterization -/

theorem addedPeople_length (existing : List Person) (lid : Nat) :
    ∀ (ps : List PersonData) (n : Nat),
      (addedPeople existing ps lid n).length =
        (ps.filter (fun pd =>
          !(existing.any (fun e => e.id == pd.id)))).length := by
  intro ps
  induction ps with
  | nil => intro n; rfl
  | cons pd t ih =>
    intro n
    by_cases hm : (existing.any (fun e => e.id == pd.id)) = true
    · simp [addedPeople, hm, List.filter_cons, ih]
    · have hm' := eq_false_of_ne_true hm
      simp [addedPeople, hm', List.filter_cons, ih]

theorem addedPeople_ids (existing : List Person) (lid : Nat) :
    ∀ (ps : List PersonData) (n : Nat),
      (addedPeople existing ps lid n).map (fun p => p.id) =
        List.range' n (addedPeople existing ps lid n).length := by
  intro ps
  induction ps with
  | nil => intro n; rfl
  | cons pd t ih =>
    intro n
    by_cases hm : (existing.any (fun e => e.id == pd.id)) = true
    · simp only [addedPeople, if_pos hm]
      exact ih n
    · simp only [addedPeople, if_neg hm, List.map_cons, List.length_cons,
        List.range'_succ]
      rw [ih (n + 1)]

theorem addedPeople_mem (existing : List Person) (lid : Nat) :
    ∀ (ps : List PersonData) (n : Nat), ∀ x ∈ addedPeople existing ps lid n,
      x.line_id = lid ∧ n ≤ x.id ∧ ∃ pd ∈ ps, x.name = pd.name := by
  intro ps
  induction ps with
  | nil =>
    intro n x hx
    cases hx
  | cons pd t ih =>
    intro n x hx
    by_cases hm : (existing.any (fun e => e.id == pd.id)) = true
    · rw [addedPeople, if_pos hm] at hx
      obtain ⟨h1, h2, pd', hpd', h3⟩ := ih n x hx
      exact ⟨h1, h2, pd', List.mem_cons_of_mem pd hpd', h3⟩
    · rw [addedPeople, if_neg hm] at hx
      rcases List.mem_cons.1 hx with rfl | hxt
      · exact ⟨rfl, Nat.le_refl n, pd, List.mem_cons_self pd t, rfl⟩
      · obtain ⟨h1, h2, pd', hpd', h3⟩ := ih (n + 1) x hxt
        exact ⟨h1, Nat.le_of_succ_le h2, pd', List.mem_cons_of_mem pd hpd', h3⟩

theorem addedPeople_names (existing : List Person) (lid : Nat) :
    ∀ (ps : List PersonData) (n : Nat),
      (addedPeople existing ps lid n).map (fun p => p.name) =
        (ps.filter (fun pd =>
          !(existing.any (fun e => e.id == pd.id)))).map
            (fun pd => pd.name) := by
  intro ps
  induction ps with
  | nil => intro n; rfl
  | cons pd t ih =>
    intro n
    by_cases hm : (existing.any (fun e => e.id == pd.id)) = true
    · simp [addedPeople, hm, List.filter_cons, ih]
    · have hm' := eq_false_of_ne_true hm
      simp [addedPeople, hm', List.filter_cons, ih]

/-- The append loop of `reconcileLinePeople`, characterized: the fresh rows
are `addedPeople` and the allocator advances once per insertion. -/
theorem appendPeople_fold (existing : List Person) (lid : Nat) :
    ∀ (ps : List PersonData) (db : DBState),
      (ps.foldl
        (fun db pd =>
          if existing.any (fun e => e.id == pd.id) then db
          else
            { db with
              people :=
                db.people ++ [{ id := db.next_person_id, line_id := lid, name := pd.name }]
              next_person_id := db.next_person_id + 1 }) db) =
      { db with
        people := db.people ++ addedPeople existing ps lid db.next_person_id
        next_person_id :=
          db.next_person_id + (addedPeople existing ps lid db.next_person_id).length } := by
  intro ps
  induction ps with
  | nil =>
    intro db
    simp [addedPeople]
  | cons pd t ih =>
    intro db
    rw [List.foldl_cons]
    by_cases hm : (existing.any (fun e => e.id == pd.id)) = true
    · rw [if_pos hm, ih]
      rw [show addedPeople existing (pd :: t) lid db.next_person_id =
        addedPeople existing t lid db.next_person_id from by
          rw [addedPeople, if_pos hm]]
    · rw [if_neg hm, ih]
      rw [show addedPeople existing (pd :: t) lid db.next_person_id =
        ⟨db.next_person_id, lid, pd.name⟩ ::
          addedPeople existing t lid (db.next_person_id + 1) from by
          rw [addedPeople, if_neg hm]]
      simp [Nat.add_comm, Nat.add_assoc, Nat.add_left_comm]

theorem addedGwq_length (existing : List GeneralWaitQueue) :
    ∀ (ps : List PersonData) (n : Nat),
      (addedGwq existing ps n).length =
        (ps.filter (fun pd =>
          !(existing.any (fun e => e.id == pd.id)))).length := by
  intro ps
  induction ps with
  | nil => intro n; rfl
  | cons pd t ih =>
    intro n
    by_cases hm : (existing.any (fun e => e.id == pd.id)) = true
    · simp [addedGwq, hm, List.filter_cons, ih]
    · have hm' := eq_false_of_ne_true hm
      simp [addedGwq, hm', List.filter_cons, ih]

theorem addedGwq_ids (existing : List GeneralWaitQueue) :
    ∀ (ps : List PersonData) (n : Nat),
      (addedGwq existing ps n).map (fun p => p.id) =
        List.range' n (addedGwq existing ps n).length := by
  intro ps
  induction ps with
  | nil => intro n; rfl
  | cons pd t ih =>
    intro n
    by_cases hm : (existing.any (fun e => e.id == pd.id)) = true
    · simp only [addedGwq, if_pos hm]
      exact ih n
    · simp only [addedGwq, if_neg hm, List.map_cons, List.length_cons,
        List.range'_succ]
      rw [ih (n + 1)]

theorem addedGwq_names (existing : List GeneralWaitQueue) :
    ∀ (ps : List PersonData) (n : Nat),
      (addedGwq existing ps n).map (fun p => p.name) =
        (ps.filter (fun pd =>
          !(existing.any (fun e => e.id == pd.id)))).map
            (fun pd => pd.name) := by
  intro ps
  induction ps with
  | nil => intro n; rfl
  | cons pd t ih =>
    intro n
    by_cases hm : (existing.any (fun e => e.id == pd.id)) = true
    · simp [addedGwq, hm, List.filter_cons, ih]
    · have hm' := eq_false_of_ne_true hm
      simp [addedGwq, hm', List.filter_cons, ih]

theorem appendGwq_fold (existing : List GeneralWaitQueue) :
    ∀ (ps : List PersonData) (db : DBState),
      (ps.foldl
        (fun db pd =>
          if existing.any (fun e => e.id == pd.id) then db
          else
            { db with
              general_wait_queue :=
                db.general_wait_queue ++ [{ id := db.next_gwq_id, name := pd.name }]
              next_gwq_id := db.next_gwq_id + 1 }) db) =
      { db with
        general_wait_queue :=
          db.general_wait_queue ++ addedGwq existing ps db.next_gwq_id
        next_gwq_id :=
          db.next_gwq_id + (addedGwq existing ps db.next_gwq_id).length } := by
  intro ps
  induction ps with
  | nil =>
    intro db
    simp [addedGwq]
  | cons pd t ih =>
    intro db
    rw [List.foldl_cons]
    by_cases hm : (existing.any (fun e => e.id == pd.id)) = true
    · rw [if_pos hm, ih]
      rw [show addedGwq existing (pd :: t) db.next_gwq_id =
        addedGwq existing t db.next_gwq_id from by
          rw [addedGwq, if_pos hm]]
    · rw [if_neg hm, ih]
      rw [show addedGwq existing (pd :: t) db.next_gwq_id =
        ⟨db.next_gwq_id, pd.name⟩ ::
          addedGwq existing t (db.next_gwq_id + 1) from by
          rw [addedGwq, if_neg hm]]
      simp [Nat.add_comm, Nat.add_assoc, Nat.add_left_comm]

/-- `reconcileLinePeople`, fully characterized. -/
theorem reconcileLinePeople_eq (db : DBState) (lid : Nat)
    (ps : List PersonData) :
    reconcileLinePeople db lid ps =
      { db with
        people :=
          db.people.filter (fun p =>
            p.line_id != lid || ps.any (fun nd => nd.id == p.id)) ++
          addedPeople (db.people.filter (fun p => p.line_id == lid)) ps lid
            db.next_person_id
        next_person_id :=
          db.next_person_id +
            (addedPeople (db.people.filter (fun p => p.line_id == lid)) ps lid
              db.next_person_id).length } := by
  show (ps.foldl _ _) = _
  rw [appendPeople_fold]

/-- `addAllPeople`, fully characterized (it is the people loop with an
empty captured dict). -/
theorem addAllPeople_eq (db : DBState) (lid : Nat) (ps : List PersonData) :
    addAllPeople db lid ps =
      { db with
        people := db.people ++ addedPeople [] ps lid db.next_person_id
        next_person_id :=
          db.next_person_id + (addedPeople [] ps lid db.next_person_id).length } := by
  have hfn :
      (fun (db : DBState) (pd : PersonData) =>
        { db with
          people :=
            db.people ++ [{ id := db.next_person_id, line_id := lid, name := pd.name }]
          next_person_id := db.next_person_id + 1 }) =
      (fun (db : DBState) (pd : PersonData) =>
        if ([] : List Person).any (fun e => e.id == pd.id) then db
        else
          { db with
            people :=
              db.people ++ [{ id := db.next_person_id, line_id := lid, name := pd.name }]
            next_person_id := db.next_person_id + 1 }) := by
    funext db pd
    rfl
  unfold addAllPeople
  rw [hfn, appendPeople_fold]

/-- `reconcileWaitQueue`, fully characterized. -/
theorem reconcileWaitQueue_eq (db : DBState) (q : List PersonData) :
    reconcileWaitQueue db q =
      { db with
        general_wait_queue :=
          db.general_wait_queue.filter (fun p =>
            q.any (fun nd => nd.id == p.id)) ++
          addedGwq db.general_wait_queue q db.next_gwq_id
        next_gwq_id :=
          db.next_gwq_id +
            (addedGwq db.general_wait_queue q db.next_gwq_id).length } := by
  show (q.foldl _ _) = _
  rw [appendGwq_fold]

/-! ## The id-keyed reconcile pattern, abstractly

The delete-unmatched / insert-unmatched loop over id-keyed rows preserves
the incoming multiset of names, provided ids are duplicate-free on both
sides and every id-matched pair agrees on the name (matched rows are left
untouched by the code). -/

theorem reconcile_names_core {α : Type} (kA : α → Nat) (nA : α → String)
    (old : List α) (ps : List PersonData)
    (hold : (old.map kA).Nodup)
    (hps : (ps.map (fun pd => pd.id)).Nodup)
    (hagree : ∀ a ∈ old, ∀ pd ∈ ps, kA a = pd.id → nA a = pd.name) :
    (((old.filter (fun a => ps.any (fun nd => nd.id == kA a))).map nA) ++
      ((ps.filter (fun pd => !(old.any (fun a => kA a == pd.id)))).map
        (fun pd => pd.name))).Perm
      (ps.map (fun pd => pd.name)) := by
  have hA : ((old.filter (fun a => ps.any (fun nd => nd.id == kA a))).map kA).Nodup :=
    ((List.filter_sublist old).map kA).nodup hold
  have hB : ((ps.filter (fun pd => old.any (fun a => kA a == pd.id))).map
      (fun pd => pd.id)).Nodup :=
    ((List.filter_sublist ps).map _).nodup hps
  have hAf : (old.filter (fun a => ps.any (fun nd => nd.id == kA a))).map nA =
      ((old.filter (fun a => ps.any (fun nd => nd.id == kA a))).map kA).map
        (fun k => (((ps.find? (fun pd => pd.id == k)).map
          (fun pd => pd.name)).getD "")) := by
    rw [List.map_map]
    apply List.map_congr_left
    intro a ha
    rw [List.mem_filter] at ha
    obtain ⟨hao, haq⟩ := ha
    rw [List.any_eq_true] at haq
    obtain ⟨pd, hpd, hpd2⟩ := haq
    have hpdid : pd.id = kA a := by simpa using hpd2
    have hfind : ps.find? (fun x => x.id == kA a) = some pd :=
      find?_key_eq (fun pd => pd.id) hps hpd hpdid
    have hname : nA a = pd.name := hagree a hao pd hpd hpdid.symm
    show nA a = (((ps.find? (fun x => x.id == kA a)).map
      (fun pd => pd.name)).getD "")
    rw [hfind, hname]
    rfl
  have hBf : (ps.filter (fun pd => old.any (fun a => kA a == pd.id))).map
      (fun pd => pd.name) =
      ((ps.filter (fun pd => old.any (fun a => kA a == pd.id))).map
        (fun pd => pd.id)).map
        (fun k => (((ps.find? (fun pd => pd.id == k)).map
          (fun pd => pd.name)).getD "")) := by
    rw [List.map_map]
    apply List.map_congr_left
    intro pd hpd
    rw [List.mem_filter] at hpd
    have hfind : ps.find? (fun x => x.id == pd.id) = some pd :=
      find?_key_eq (fun pd => pd.id) hps hpd.1 rfl
    show pd.name = (((ps.find? (fun x => x.id == pd.id)).map
      (fun pd => pd.name)).getD "")
    rw [hfind]
    rfl
  have hmem : ∀ k,
      k ∈ (old.filter (fun a => ps.any (fun nd => nd.id == kA a))).map kA ↔
      k ∈ (ps.filter (fun pd => old.any (fun a => kA a == pd.id))).map
        (fun pd => pd.id) := by
    intro k
    constructor
    · intro hk
      rcases List.mem_map.1 hk with ⟨a, ha, rfl⟩
      rw [List.mem_filter] at ha
      obtain ⟨hao, haq⟩ := ha
      rw [List.any_eq_true] at haq
      obtain ⟨pd, hpd, hpd2⟩ := haq
      have hpdid : pd.id = kA a := by simpa using hpd2
      refine List.mem_map.2 ⟨pd, ?_, hpdid⟩
      rw [List.mem_filter]
      refine ⟨hpd, ?_⟩
      rw [List.any_eq_true]
      exact ⟨a, hao, by simp [hpdid]⟩
    · intro hk
      rcases List.mem_map.1 hk with ⟨pd, hpd, rfl⟩
      rw [List.mem_filter] at hpd
      obtain ⟨hpo, hpq⟩ := hpd
      rw [List.any_eq_true] at hpq
      obtain ⟨a, hao, ha2⟩ := hpq
      have haid : kA a = pd.id := by simpa using ha2
      refine List.mem_map.2 ⟨a, ?_, haid⟩
      rw [List.mem_filter]
      refine ⟨hao, ?_⟩
      rw [List.any_eq_true]
      exact ⟨pd, hpo, by simp [haid]⟩
  have hperm1 : ((old.filter (fun a =>
      ps.any (fun nd => nd.id == kA a))).map nA).Perm
      ((ps.filter (fun pd => old.any (fun a => kA a == pd.id))).map
        (fun pd => pd.name)) := by
    rw [hAf, hBf]
    exact key_perm_map _ hA hB hmem
  have hperm2 := hperm1.append_right
    ((ps.filter (fun pd => !(old.any (fun a => kA a == pd.id)))).map
      (fun pd => pd.name))
  refine hperm2.trans ?_
  rw [← List.map_append]
  exact (List.filter_append_perm _ ps).map (fun pd => pd.name)

/-- The rows of line `lid` after a matched-line people loop. -/
theorem reconcileLinePeople_of_lid (db : DBState) (lid : Nat)
    (ps : List PersonData) :
    (reconcileLinePeople db lid ps).people.filter
        (fun p => p.line_id == lid) =
      (db.people.filter (fun p => p.line_id == lid)).filter
        (fun p => ps.any (fun nd => nd.id == p.id)) ++
      addedPeople (db.people.filter (fun p => p.line_id == lid)) ps lid
        db.next_person_id := by
  rw [reconcileLinePeople_eq]
  show List.filter _ (_ ++ _) = _
  rw [List.filter_append]
  congr 1
  · rw [List.filter_filter, List.filter_filter]
    apply List.filter_congr
    intro p _
    by_cases hpl : p.line_id = lid
    · simp [hpl]
    · have hb : (p.line_id == lid) = false := by
        simp [hpl]
      simp [hb]
  · apply List.filter_eq_self.2
    intro x hx
    have h1 := (addedPeople_mem _ _ ps db.next_person_id x hx).1
    simp [h1]

/-- A matched-line people loop does not touch the rows of other lines. -/
theorem reconcileLinePeople_of_ne (db : DBState) (lid : Nat)
    (ps : List PersonData) (lid' : Nat) (h : ¬lid' = lid) :
    (reconcileLinePeople db lid ps).people.filter
        (fun p => p.line_id == lid') =
      db.people.filter (fun p => p.line_id == lid') := by
  rw [reconcileLinePeople_eq]
  show List.filter _ (_ ++ _) = _
  rw [List.filter_append]
  have h2 : (addedPeople (db.people.filter (fun p => p.line_id == lid)) ps
      lid db.next_person_id).filter (fun p => p.line_id == lid') = [] := by
    rw [List.filter_eq_nil_iff]
    intro x hx
    have h1 := (addedPeople_mem _ _ ps db.next_person_id x hx).1
    simp [h1]
    omega
  rw [h2, List.append_nil, List.filter_filter]
  apply List.filter_congr
  intro p _
  by_cases hpl : p.line_id = lid'
  · have hnl : ¬p.line_id = lid := by omega
    simp [hpl, hnl]
    exact Or.inl h
  · have hb : (p.line_id == lid') = false := by
      simp [hpl]
    simp [hb]

/-- The rows of the fresh line `lid` after a new-line people loop: exactly
the inserted rows, provided no stored person already references `lid`. -/
theorem addAllPeople_of_lid (db : DBState) (lid : Nat) (ps : List PersonData)
    (hfresh : ∀ p ∈ db.people, ¬p.line_id = lid) :
    (addAllPeople db lid ps).people.filter (fun p => p.line_id == lid) =
      addedPeople [] ps lid db.next_person_id := by
  rw [addAllPeople_eq]
  show List.filter _ (_ ++ _) = _
  rw [List.filter_append]
  have h1 : db.people.filter (fun p => p.line_id == lid) = [] := by
    rw [List.filter_eq_nil_iff]
    intro p hp
    simp [hfresh p hp]
  have h2 : (addedPeople [] ps lid db.next_person_id).filter
      (fun p => p.line_id == lid) = addedPeople [] ps lid db.next_person_id := by
    apply List.filter_eq_self.2
    intro x hx
    have := (addedPeople_mem _ _ ps db.next_person_id x hx).1
    simp [this]
  rw [h1, h2, List.nil_append]

/-- A new-line people loop does not touch the rows of other lines. -/
theorem addAllPeople_of_ne (db : DBState) (lid : Nat) (ps : List PersonData)
    (lid' : Nat) (h : ¬lid' = lid) :
    (addAllPeople db lid ps).people.filter (fun p => p.line_id == lid') =
      db.people.filter (fun p => p.line_id == lid') := by
  rw [addAllPeople_eq]
  show List.filter _ (_ ++ _) = _
  rw [List.filter_append]
  have h2 : (addedPeople [] ps lid db.next_person_id).filter
      (fun p => p.line_id == lid') = [] := by
    rw [List.filter_eq_nil_iff]
    intro x hx
    have h1 := (addedPeople_mem _ _ ps db.next_person_id x hx).1
    simp [h1]
    omega
  rw [h2, List.append_nil]

/-- A matched-line people loop turns the multiset of names of that line's
rows into the incoming multiset of names — given duplicate-free ids on both
sides and name agreement on id-matched rows. -/
theorem reconcileLinePeople_names_perm (db : DBState) (lid : Nat)
    (ps : List PersonData)
    (hids : ((db.people.filter (fun p => p.line_id == lid)).map
      (fun p => p.id)).Nodup)
    (hq : (ps.map (fun pd => pd.id)).Nodup)
    (hagree : ∀ p ∈ db.people.filter (fun p => p.line_id == lid),
      ∀ pd ∈ ps, p.id = pd.id → p.name = pd.name) :
    (((reconcileLinePeople db lid ps).people.filter
        (fun p => p.line_id == lid)).map (fun p => p.name)).Perm
      (ps.map (fun pd => pd.name)) := by
  rw [reconcileLinePeople_of_lid, List.map_append, addedPeople_names]
  exact reconcile_names_core (fun p => p.id) (fun p => p.name)
    (db.people.filter (fun p => p.line_id == lid)) ps hids hq hagree

/-- A new-line people loop gives the fresh line exactly the incoming names
(in order). -/
theorem addAllPeople_names (db : DBState) (lid : Nat) (ps : List PersonData)
    (hfresh : ∀ p ∈ db.people, ¬p.line_id = lid) :
    ((addAllPeople db lid ps).people.filter
        (fun p => p.line_id == lid)).map (fun p => p.name) =
      ps.map (fun pd => pd.name) := by
  rw [addAllPeople_of_lid db lid ps hfresh, addedPeople_names]
  simp

/-- The wait-queue reconciliation turns the stored multiset of names into
the incoming one — same provisos as for a line's people. -/
theorem reconcileWaitQueue_names_perm (db : DBState) (q : List PersonData)
    (hids : (db.general_wait_queue.map (fun g => g.id)).Nodup)
    (hq : (q.map (fun pd => pd.id)).Nodup)
    (hagree : ∀ g ∈ db.general_wait_queue, ∀ pd ∈ q,
      g.id = pd.id → g.name = pd.name) :
    (((reconcileWaitQueue db q).general_wait_queue).map
        (fun g => g.name)).Perm (q.map (fun pd => pd.name)) := by
  rw [reconcileWaitQueue_eq]
  show (List.map (fun g : GeneralWaitQueue => g.name) (_ ++ _)).Perm
    (q.map (fun pd => pd.name))
  rw [List.map_append, addedGwq_names]
  exact reconcile_names_core (fun g => g.id) (fun g => g.name)
    db.general_wait_queue q hids hq hagree

/-! ## Upsert-loop characterization -/

theorem freshLines_length (dict : List (String × Line)) :
    ∀ (ds : List LineData) (n : Nat),
      (freshLines dict ds n).length =
        (ds.filter (fun ld => (dictGet dict ld.name).isNone)).length := by
  intro ds
  induction ds with
  | nil => intro n; rfl
  | cons ld t ih =>
    intro n
    rcases h : dictGet dict ld.name with _ | l
    · simp [freshLines, h, List.filter_cons, ih]
    · simp [freshLines, h, List.filter_cons, ih]

theorem freshLines_ids (dict : List (String × Line)) :
    ∀ (ds : List LineData) (n : Nat),
      (freshLines dict ds n).map (fun l => l.id) =
        List.range' n (freshLines dict ds n).length := by
  intro ds
  induction ds with
  | nil => intro n; rfl
  | cons ld t ih =>
    intro n
    rcases h : dictGet dict ld.name with _ | l
    · simp only [freshLines, h, List.map_cons, List.length_cons,
        List.range'_succ]
      rw [ih (n + 1)]
    · simp only [freshLines, h]
      exact ih n

theorem freshLines_mem (dict : List (String × Line)) :
    ∀ (ds : List LineData) (n : Nat), ∀ x ∈ freshLines dict ds n,
      n ≤ x.id ∧ ∃ ld ∈ ds, dictGet dict ld.name = none ∧
        x.name = ld.name ∧ x.time = ld.time := by
  intro ds
  induction ds with
  | nil =>
    intro n x hx
    cases hx
  | cons ld t ih =>
    intro n x hx
    rcases h : dictGet dict ld.name with _ | l
    · rw [freshLines, h] at hx
      rcases List.mem_cons.1 hx with rfl | hxt
      · exact ⟨Nat.le_refl n, ld, List.mem_cons_self ld t, h, rfl, rfl⟩
      · obtain ⟨h1, ld', hld', h2, h3, h4⟩ := ih (n + 1) x hxt
        exact ⟨Nat.le_of_succ_le h1, ld', List.mem_cons_of_mem ld hld',
          h2, h3, h4⟩
    · rw [freshLines, h] at hx
      obtain ⟨h1, ld', hld', h2, h3, h4⟩ := ih n x hx
      exact ⟨h1, ld', List.mem_cons_of_mem ld hld', h2, h3, h4⟩

theorem freshLines_names (dict : List (String × Line)) :
    ∀ (ds : List LineData) (n : Nat),
      (freshLines dict ds n).map (fun l => l.name) =
        (ds.filter (fun ld => (dictGet dict ld.name).isNone)).map
          (fun ld => ld.name) := by
  intro ds
  induction ds with
  | nil => intro n; rfl
  | cons ld t ih =>
    intro n
    rcases h : dictGet dict ld.name with _ | l
    · simp [freshLines, h, List.filter_cons, ih]
    · simp [freshLines, h, List.filter_cons, ih]

/-- `find?` by name is unchanged by a map that preserves names and fixes
every element carrying the searched name. -/
theorem find?_map_invariant {f : Line → Line}
    (hname : ∀ x, (f x).name = x.name) :
    ∀ (l : List Line) (n : String), (∀ x ∈ l, x.name = n → f x = x) →
      (l.map f).find? (fun x => x.name == n) =
        l.find? (fun x => x.name == n) := by
  intro l
  induction l with
  | nil => intro n _; rfl
  | cons x t ih =>
    intro n hfix
    rw [List.map_cons]
    by_cases hx : (x.name == n) = true
    · have hfx : ((f x).name == n) = true := by rw [hname]; exact hx
      have h1 : (f x :: t.map f).find? (fun z => z.name == n) = some (f x) :=
        List.find?_cons_of_pos _ hfx
      have h2 : (x :: t).find? (fun z => z.name == n) = some x :=
        List.find?_cons_of_pos _ hx
      rw [h1, h2, hfix x (List.mem_cons_self x t) (by simpa using hx)]
    · have hfx : ¬((f x).name == n) = true := by rw [hname]; exact hx
      have h1 : (f x :: t.map f).find? (fun z => z.name == n) =
          (t.map f).find? (fun z => z.name == n) :=
        List.find?_cons_of_neg _ hfx
      have h2 : (x :: t).find? (fun z => z.name == n) =
          t.find? (fun z => z.name == n) :=
        List.find?_cons_of_neg _ hx
      rw [h1, h2]
      exact ih n (fun y hy => hfix y (List.mem_cons_of_mem x hy))

/-- `find?` by name is unchanged by appending a line with another name. -/
theorem find?_append_singleton {l : List Line} {y : Line} {n : String}
    (h : ¬(y.name == n) = true) :
    (l ++ [y]).find? (fun x => x.name == n) =
      l.find? (fun x => x.name == n) := by
  induction l with
  | nil =>
    have h1 : ([y] : List Line).find? (fun x => x.name == n) =
        ([] : List Line).find? (fun x => x.name == n) :=
      List.find?_cons_of_neg _ h
    rw [List.nil_append, h1]
  | cons x t ih =>
    by_cases hx : (x.name == n) = true
    · have h1 : (x :: (t ++ [y])).find? (fun z => z.name == n) = some x :=
        List.find?_cons_of_pos _ hx
      have h2 : (x :: t).find? (fun z => z.name == n) = some x :=
        List.find?_cons_of_pos _ hx
      rw [List.cons_append, h1, h2]
    · have h1 : (x :: (t ++ [y])).find? (fun z => z.name == n) =
          (t ++ [y]).find? (fun z => z.name == n) :=
        List.find?_cons_of_neg _ hx
      have h2 : (x :: t).find? (fun z => z.name == n) =
          t.find? (fun z => z.name == n) :=
        List.find?_cons_of_neg _ hx
      rw [List.cons_append, h1, h2, ih]

theorem upsertLine_lines_matched (dict : List (String × Line))
    (db : DBState) (ld : LineData) {l : Line}
    (h : dictGet dict ld.name = some l) :
    (upsertLine dict db ld).lines =
      db.lines.map (fun x =>
        if x.id == l.id then { x with time := ld.time } else x) := by
  unfold upsertLine
  rw [h]
  show (reconcileLinePeople _ _ _).lines = _
  rw [reconcileLinePeople_eq]

theorem upsertLine_lines_new (dict : List (String × Line)) (db : DBState)
    (ld : LineData) (h : dictGet dict ld.name = none) :
    (upsertLine dict db ld).lines =
      db.lines ++ [⟨db.next_line_id, ld.name, ld.time⟩] := by
  unfold upsertLine
  rw [h]
  show (addAllPeople _ _ _).lines = _
  rw [addAllPeople_eq]

theorem upsertLine_next_line_id (dict : List (String × Line)) (db : DBState)
    (ld : LineData) :
    (upsertLine dict db ld).next_line_id =
      (if (dictGet dict ld.name).isSome then db.next_line_id
       else db.next_line_id + 1) := by
  rcases h : dictGet dict ld.name with _ | l
  · unfold upsertLine
    rw [h]
    show (addAllPeople _ _ _).next_line_id = _
    rw [addAllPeople_eq]
    simp [h]
  · unfold upsertLine
    rw [h]
    show (reconcileLinePeople _ _ _).next_line_id = _
    rw [reconcileLinePeople_eq]
    simp [h]

theorem upsertLine_gwq (dict : List (String × Line)) (db : DBState)
    (ld : LineData) :
    (upsertLine dict db ld).general_wait_queue = db.general_wait_queue ∧
    (upsertLine dict db ld).next_gwq_id = db.next_gwq_id := by
  rcases h : dictGet dict ld.name with _ | l
  · unfold upsertLine
    rw [h]
    constructor
    · show (addAllPeople _ _ _).general_wait_queue = _
      rw [addAllPeople_eq]
    · show (addAllPeople _ _ _).next_gwq_id = _
      rw [addAllPeople_eq]
  · unfold upsertLine
    rw [h]
    constructor
    · show (reconcileLinePeople _ _ _).general_wait_queue = _
      rw [reconcileLinePeople_eq]
    · show (reconcileLinePeople _ _ _).next_gwq_id = _
      rw [reconcileLinePeople_eq]

theorem reconcileWaitQueue_frame (db : DBState) (q : List PersonData) :
    (reconcileWaitQueue db q).lines = db.lines ∧
    (reconcileWaitQueue db q).people = db.people ∧
    (reconcileWaitQueue db q).next_line_id = db.next_line_id ∧
    (reconcileWaitQueue db q).next_person_id = db.next_person_id := by
  rw [reconcileWaitQueue_eq]
  exact ⟨rfl, rfl, rfl, rfl⟩

theorem upsertFold_gwq (dict : List (String × Line)) (ds : List LineData)
    (db : DBState) :
    ((ds.foldl (upsertLine dict) db).general_wait_queue,
      (ds.foldl (upsertLine dict) db).next_gwq_id) =
      (db.general_wait_queue, db.next_gwq_id) :=
  foldl_frame _ (fun d => (d.general_wait_queue, d.next_gwq_id))
    (fun db ld => by
      have h := upsertLine_gwq dict db ld
      rw [Prod.mk.injEq]
      exact ⟨h.1, h.2⟩) ds db

theorem upsertLine_people_new (dict : List (String × Line)) (db : DBState)
    (ld : LineData) (h : dictGet dict ld.name = none) :
    (upsertLine dict db ld).people =
      db.people ++
        addedPeople [] (ld.people.getD []) db.next_line_id
          db.next_person_id ∧
    (upsertLine dict db ld).next_person_id =
      db.next_person_id +
        (addedPeople [] (ld.people.getD []) db.next_line_id
          db.next_person_id).length := by
  unfold upsertLine
  rw [h]
  constructor
  · show (addAllPeople _ _ _).people = _
    rw [addAllPeople_eq]
  · show (addAllPeople _ _ _).next_person_id = _
    rw [addAllPeople_eq]

theorem upsertLine_people_matched (dict : List (String × Line))
    (db : DBState) (ld : LineData) {l : Line}
    (h : dictGet dict ld.name = some l) :
    (upsertLine dict db ld).people =
      db.people.filter (fun p =>
        p.line_id != l.id ||
          (ld.people.getD []).any (fun nd => nd.id == p.id)) ++
       addedPeople (db.people.filter (fun p => p.line_id == l.id))
         (ld.people.getD []) l.id db.next_person_id ∧
    (upsertLine dict db ld).next_person_id =
      db.next_person_id +
        (addedPeople (db.people.filter (fun p => p.line_id == l.id))
          (ld.people.getD []) l.id db.next_person_id).length := by
  unfold upsertLine
  rw [h]
  constructor
  · show (reconcileLinePeople _ _ _).people = _
    rw [reconcileLinePeople_eq]
  · show (reconcileLinePeople _ _ _).next_person_id = _
    rw [reconcileLinePeople_eq]

/-- One upsert step leaves the people of any other line id untouched. -/
theorem upsertLine_people_of_ne (dict : List (String × Line)) (db : DBState)
    (ld : LineData) (lid' : Nat)
    (hm : ∀ l, dictGet dict ld.name = some l → ¬lid' = l.id)
    (hn : dictGet dict ld.name = none → ¬lid' = db.next_line_id) :
    (upsertLine dict db ld).people.filter (fun p => p.line_id == lid') =
      db.people.filter (fun p => p.line_id == lid') := by
  rcases h : dictGet dict ld.name with _ | l
  · unfold upsertLine
    rw [h]
    show (addAllPeople _ _ _).people.filter _ = _
    rw [addAllPeople_of_ne _ _ _ _ (hn h)]
  · unfold upsertLine
    rw [h]
    show (reconcileLinePeople _ _ _).people.filter _ = _
    rw [reconcileLinePeople_of_ne _ _ _ _ (hm l h)]

/-- One upsert step preserves the invariant for the remaining lines. -/
theorem foldInv_step (dict : List (String × Line)) (ld : LineData)
    (t : List LineData) (db : DBState) (inv : FoldInv dict (ld :: t) db) :
    FoldInv dict t (upsertLine dict db ld) := by
  have hdf := inv.dict_find ld (List.mem_cons_self ld t)
  have hldt : ∀ ld' ∈ t, ld'.name ≠ ld.name := by
    intro ld' hld' he
    have := inv.ds_names_nodup
    rw [List.map_cons, List.nodup_cons] at this
    exact this.1 (he ▸ List.mem_map_of_mem _ hld')
  rcases h : dictGet dict ld.name with _ | l
  · rw [h] at hdf
    have hnone : ∀ x ∈ db.lines, ¬(x.name == ld.name) = true :=
      List.find?_eq_none.1 hdf.symm
    have hlines := upsertLine_lines_new dict db ld h
    have hnl : (upsertLine dict db ld).next_line_id =
        db.next_line_id + 1 := by
      rw [upsertLine_next_line_id, h]
      rfl
    obtain ⟨hpeople, hnp⟩ := upsertLine_people_new dict db ld h
    have haddmem := addedPeople_mem ([] : List Person) db.next_line_id
      (ld.people.getD []) db.next_person_id
    have haddid : (addedPeople [] (ld.people.getD []) db.next_line_id
        db.next_person_id).map (fun p => p.id) =
        List.range' db.next_person_id
          (addedPeople [] (ld.people.getD []) db.next_line_id
            db.next_person_id).length :=
      addedPeople_ids [] db.next_line_id (ld.people.getD []) db.next_person_id
    constructor
    · exact inv.ds_names_nodup.of_cons
    · rw [hlines, List.map_append]
      refine List.Nodup.append inv.lines_names_nodup (by simp) ?_
      intro a ha hb
      rcases List.mem_map.1 ha with ⟨x, hx, rfl⟩
      simp at hb
      exact hnone x hx (by simp [hb])
    · rw [hlines, List.map_append]
      refine List.Nodup.append inv.lines_ids_nodup (by simp) ?_
      intro a ha hb
      rcases List.mem_map.1 ha with ⟨x, hx, rfl⟩
      simp at hb
      have := inv.lines_id_lt x hx
      omega
    · rw [hlines, hnl]
      intro x hx
      rcases List.mem_append.1 hx with hx1 | hx2
      · have := inv.lines_id_lt x hx1
        omega
      · simp at hx2
        subst hx2
        simp
    · rw [hpeople, List.map_append]
      refine List.Nodup.append inv.people_ids_nodup ?_ ?_
      · rw [haddid]
        exact List.nodup_range' _ _
      · intro a ha hb
        rw [haddid] at hb
        rcases List.mem_map.1 ha with ⟨p, hp, rfl⟩
        have h1 := inv.people_id_lt p hp
        have h2 := (List.mem_range'_1.1 hb).1
        omega
    · rw [hpeople, hnp]
      intro p hp
      rcases List.mem_append.1 hp with hp1 | hp2
      · have := inv.people_id_lt p hp1
        omega
      · have hb : p.id ∈ List.range' db.next_person_id
            (addedPeople [] (ld.people.getD []) db.next_line_id
              db.next_person_id).length := by
          rw [← haddid]
          exact List.mem_map_of_mem _ hp2
        have := (List.mem_range'_1.1 hb).2
        omega
    · rw [hpeople, hnl]
      intro p hp
      rcases List.mem_append.1 hp with hp1 | hp2
      · have := inv.people_line_lt p hp1
        omega
      · have := (haddmem p hp2).1
        omega
    · intro ld' hld'
      rw [inv.dict_find ld' (List.mem_cons_of_mem ld hld'), hlines]
      rw [find?_append_singleton]
      simp
      exact fun he => hldt ld' hld' he.symm
  · rw [h] at hdf
    have hlmem : l ∈ db.lines := List.mem_of_find?_eq_some hdf.symm
    have hlname : l.name = ld.name := by
      have := List.find?_some hdf.symm
      simpa using this
    have hlines := upsertLine_lines_matched dict db ld h
    have hnl : (upsertLine dict db ld).next_line_id = db.next_line_id := by
      rw [upsertLine_next_line_id, h]
      rfl
    obtain ⟨hpeople, hnp⟩ := upsertLine_people_matched dict db ld h
    have hfname : ∀ x : Line,
        ((fun x => if x.id == l.id then { x with time := ld.time } else x) x).name
          = x.name := by
      intro x
      dsimp only
      split <;> rfl
    have hfid : ∀ x : Line,
        ((fun x => if x.id == l.id then { x with time := ld.time } else x) x).id
          = x.id := by
      intro x
      dsimp only
      split <;> rfl
    have hmapname : (db.lines.map (fun x =>
        if x.id == l.id then { x with time := ld.time } else x)).map
          (fun x => x.name) = db.lines.map (fun x => x.name) := by
      rw [List.map_map]
      exact List.map_congr_left (fun x _ => hfname x)
    have hmapid : (db.lines.map (fun x =>
        if x.id == l.id then { x with time := ld.time } else x)).map
          (fun x => x.id) = db.lines.map (fun x => x.id) := by
      rw [List.map_map]
      exact List.map_congr_left (fun x _ => hfid x)
    have haddmem := addedPeople_mem
      (db.people.filter (fun p => p.line_id == l.id)) l.id
      (ld.people.getD []) db.next_person_id
    have haddid := addedPeople_ids
      (db.people.filter (fun p => p.line_id == l.id)) l.id
      (ld.people.getD []) db.next_person_id
    constructor
    · exact inv.ds_names_nodup.of_cons
    · rw [hlines, hmapname]
      exact inv.lines_names_nodup
    · rw [hlines, hmapid]
      exact inv.lines_ids_nodup
    · rw [hlines, hnl]
      intro x hx
      rcases List.mem_map.1 hx with ⟨x0, hx0, rfl⟩
      rw [hfid]
      exact inv.lines_id_lt x0 hx0
    · rw [hpeople, List.map_append]
      refine List.Nodup.append
        (((List.filter_sublist db.people).map _).nodup inv.people_ids_nodup)
        ?_ ?_
      · rw [haddid]
        exact List.nodup_range' _ _
      · intro a ha hb
        rw [haddid] at hb
        rcases List.mem_map.1 ha with ⟨p, hp, rfl⟩
        have h1 := inv.people_id_lt p (List.mem_of_mem_filter hp)
        have h2 := (List.mem_range'_1.1 hb).1
        omega
    · rw [hpeople, hnp]
      intro p hp
      rcases List.mem_append.1 hp with hp1 | hp2
      · have := inv.people_id_lt p (List.mem_of_mem_filter hp1)
        omega
      · have hb : p.id ∈ List.range' db.next_person_id
            (addedPeople (db.people.filter (fun p => p.line_id == l.id))
              (ld.people.getD []) l.id db.next_person_id).length := by
          rw [← haddid]
          exact List.mem_map_of_mem _ hp2
        have := (List.mem_range'_1.1 hb).2
        omega
    · rw [hpeople, hnl]
      intro p hp
      rcases List.mem_append.1 hp with hp1 | hp2
      · exact inv.people_line_lt p (List.mem_of_mem_filter hp1)
      · have h1 := (haddmem p hp2).1
        rw [h1]
        exact inv.lines_id_lt l hlmem
    · intro ld' hld'
      rw [inv.dict_find ld' (List.mem_cons_of_mem ld hld'), hlines]
      rw [find?_map_invariant hfname]
      intro x hx hxn
      rw [if_neg]
      intro hc
      have hxl : x = l := eq_of_nodup_key (fun y => y.id) inv.lines_ids_nodup
        hx hlmem (by simpa using hc)
      subst hxl
      exact hldt ld' hld' (hxn ▸ hlname ▸ rfl)

theorem ds_names_head_notin {ld : LineData} {t : List LineData}
    (h : ((ld :: t).map (fun ld => ld.name)).Nodup) :
    ∀ ld' ∈ t, ld'.name ≠ ld.name := by
  intro ld' hld' he
  rw [List.map_cons, List.nodup_cons] at h
  exact h.1 (he ▸ List.mem_map_of_mem _ hld')

/-- The line rows after the whole upsert loop: the surviving stored rows
with times overwritten, then the freshly inserted rows. -/
theorem upsertFold_lines (dict : List (String × Line)) :
    ∀ (ds : List LineData) (db : DBState), FoldInv dict ds db →
      (ds.foldl (upsertLine dict) db).lines =
        db.lines.map (updTime ds) ++ freshLines dict ds db.next_line_id := by
  intro ds
  induction ds with
  | nil =>
    intro db _
    show db.lines = db.lines.map (updTime []) ++ freshLines dict []
      db.next_line_id
    rw [show freshLines dict [] db.next_line_id = [] from rfl,
      List.append_nil,
      show db.lines.map (updTime []) = db.lines.map (fun x => x) from
        List.map_congr_left (fun x _ => rfl)]
    exact (List.map_id' db.lines).symm
  | cons ld t ih =>
    intro db inv
    have step := foldInv_step dict ld t db inv
    have hdf := inv.dict_find ld (List.mem_cons_self ld t)
    have hldt := ds_names_head_notin inv.ds_names_nodup
    rw [List.foldl_cons, ih _ step]
    rcases h : dictGet dict ld.name with _ | l
    · rw [h] at hdf
      have hnone : ∀ x ∈ db.lines, ¬(x.name == ld.name) = true :=
        List.find?_eq_none.1 hdf.symm
      have hnl : (upsertLine dict db ld).next_line_id =
          db.next_line_id + 1 := by
        rw [upsertLine_next_line_id, h]
        rfl
      have hfindt : t.find? (fun ld' => ld'.name == ld.name) = none :=
        List.find?_eq_none.2 (fun ld' hld' => by simp [hldt ld' hld'])
      have hfr : updTime t (⟨db.next_line_id, ld.name, ld.time⟩ : Line) =
          ⟨db.next_line_id, ld.name, ld.time⟩ := by
        unfold updTime
        rw [show (⟨db.next_line_id, ld.name, ld.time⟩ : Line).name = ld.name
          from rfl, hfindt]
      have hkept : db.lines.map (updTime t) =
          db.lines.map (updTime (ld :: t)) := by
        apply List.map_congr_left
        intro x hx
        have hne : ¬(ld.name == x.name) = true := by
          have := hnone x hx
          simp at this ⊢
          exact fun he => this he.symm
        have hcons : ((ld :: t).find? (fun ld' => ld'.name == x.name)) =
            t.find? (fun ld' => ld'.name == x.name) :=
          List.find?_cons_of_neg _ hne
        unfold updTime
        rw [hcons]
      have hfresh : freshLines dict (ld :: t) db.next_line_id =
          ⟨db.next_line_id, ld.name, ld.time⟩ ::
            freshLines dict t (db.next_line_id + 1) := by
        rw [freshLines, h]
      rw [upsertLine_lines_new dict db ld h, hnl, List.map_append, hfresh,
        hkept]
      simp [hfr]
    · rw [h] at hdf
      have hlmem : l ∈ db.lines := List.mem_of_find?_eq_some hdf.symm
      have hlname : l.name = ld.name := by
        have := List.find?_some hdf.symm
        simpa using this
      have hnl : (upsertLine dict db ld).next_line_id = db.next_line_id := by
        rw [upsertLine_next_line_id, h]
        rfl
      have hfl : freshLines dict (ld :: t) db.next_line_id =
          freshLines dict t db.next_line_id := by
        rw [freshLines, h]
      have hfindt : t.find? (fun ld' => ld'.name == l.name) = none :=
        List.find?_eq_none.2 (fun ld' hld' => by
          simp [hlname, hldt ld' hld'])
      rw [upsertLine_lines_matched dict db ld h, hnl, hfl, List.map_map]
      have hkept : db.lines.map (updTime t ∘ fun x =>
          if x.id == l.id then { x with time := ld.time } else x) =
          db.lines.map (updTime (ld :: t)) := by
        apply List.map_congr_left
        intro x hx
        show updTime t (if x.id == l.id then { x with time := ld.time } else x)
          = updTime (ld :: t) x
        by_cases hid : (x.id == l.id) = true
        · have hxl : x = l := eq_of_nodup_key (fun y => y.id)
            inv.lines_ids_nodup hx hlmem (by simpa using hid)
          subst hxl
          rw [if_pos hid]
          unfold updTime
          have hpos : ((ld :: t).find? (fun ld' => ld'.name == x.name)) =
              some ld :=
            List.find?_cons_of_pos _ (by simp [hlname])
          rw [hpos, hfindt]
        · rw [if_neg hid]
          have hxname : ¬(ld.name == x.name) = true := by
            simp
            intro he
            have hxl : x = l := eq_of_nodup_key (fun y => y.name)
              inv.lines_names_nodup hx hlmem (by
                show x.name = l.name
                rw [← he, hlname])
            subst hxl
            simp at hid
          have hcons : ((ld :: t).find? (fun ld' => ld'.name == x.name)) =
              t.find? (fun ld' => ld'.name == x.name) :=
            List.find?_cons_of_neg _ hxname
          unfold updTime
          rw [hcons]
      rw [hkept]

/-- The whole upsert loop leaves the people of a line id untouched when no
incoming line resolves to that id. -/
theorem upsertFold_people_frame (dict : List (String × Line)) :
    ∀ (ds : List LineData) (db : DBState) (lid : Nat), FoldInv dict ds db →
      lid < db.next_line_id →
      (∀ ld ∈ ds, ∀ l, dictGet dict ld.name = some l → ¬lid = l.id) →
      (ds.foldl (upsertLine dict) db).people.filter
          (fun p => p.line_id == lid) =
        db.people.filter (fun p => p.line_id == lid) := by
  intro ds
  induction ds with
  | nil =>
    intro db lid _ _ _
    rfl
  | cons ld t ih =>
    intro db lid inv hlt hm
    have step := foldInv_step dict ld t db inv
    have h1 := upsertLine_people_of_ne dict db ld lid
      (hm ld (List.mem_cons_self ld t)) (fun _ => by omega)
    have hlt' : lid < (upsertLine dict db ld).next_line_id := by
      rw [upsertLine_next_line_id]
      split <;> omega
    rw [List.foldl_cons,
      ih _ lid step hlt' (fun ld' hld' => hm ld' (List.mem_cons_of_mem ld hld')),
      h1]

theorem updTime_name (ds : List LineData) (x : Line) :
    (updTime ds x).name = x.name := by
  unfold updTime
  rcases h : ds.find? (fun ld => ld.name == x.name) with _ | ld <;> rw [h]

theorem updTime_id (ds : List LineData) (x : Line) :
    (updTime ds x).id = x.id := by
  unfold updTime
  rcases h : ds.find? (fun ld => ld.name == x.name) with _ | ld <;> rw [h]

/-- After the whole upsert loop, the line row carrying an incoming line's
name holds exactly that incoming line's multiset of people names — given
duplicate-free incoming person ids for that line and name agreement with
the stored rows the loop matches them against. -/
theorem upsertFold_people_perm (dict : List (String × Line)) :
    ∀ (ds : List LineData) (db : DBState), FoldInv dict ds db →
      ∀ ld ∈ ds,
        ((ld.people.getD []).map (fun pd => pd.id)).Nodup →
        (∀ l, dictGet dict ld.name = some l →
          ∀ p ∈ db.people.filter (fun p => p.line_id == l.id),
            ∀ pd ∈ ld.people.getD [], p.id = pd.id → p.name = pd.name) →
        ∀ x ∈ (ds.foldl (upsertLine dict) db).lines, x.name = ld.name →
          (((ds.foldl (upsertLine dict) db).people.filter
              (fun p => p.line_id == x.id)).map (fun p => p.name)).Perm
            ((ld.people.getD []).map (fun pd => pd.name)) := by
  intro ds
  induction ds with
  | nil =>
    intro db _ ld hld
    cases hld
  | cons ld0 t ih =>
    intro db inv ld hld hnodup hagree x hx hxname
    have step := foldInv_step dict ld0 t db inv
    have hldt := ds_names_head_notin inv.ds_names_nodup
    rcases List.mem_cons.1 hld with rfl | hld2
    · -- ld is the head: its line is finalized by this step and then framed
      have hdf := inv.dict_find ld (List.mem_cons_self ld t)
      rw [upsertFold_lines dict _ db inv] at hx
      rcases h : dictGet dict ld.name with _ | l
      · -- new line: resolved id is the fresh one
        rw [h] at hdf
        have hnone : ∀ y ∈ db.lines, ¬(y.name == ld.name) = true :=
          List.find?_eq_none.1 hdf.symm
        have hxid : x.id = db.next_line_id := by
          rcases List.mem_append.1 hx with hx1 | hx2
          · rcases List.mem_map.1 hx1 with ⟨x0, hx0, rfl⟩
            have := hnone x0 hx0
            rw [updTime_name] at hxname
            simp [hxname] at this
          · rw [show freshLines dict (ld :: t) db.next_line_id =
                ⟨db.next_line_id, ld.name, ld.time⟩ ::
                  freshLines dict t (db.next_line_id + 1) from by
                rw [freshLines, h]] at hx2
            rcases List.mem_cons.1 hx2 with rfl | hx3
            · rfl
            · obtain ⟨-, ld', hld', -, h3, -⟩ :=
                freshLines_mem dict t (db.next_line_id + 1) x hx3
              exact absurd (h3 ▸ hxname) (hldt ld' hld')
        have hframe : ((ld :: t).foldl (upsertLine dict) db).people.filter
            (fun p => p.line_id == db.next_line_id) =
            (upsertLine dict db ld).people.filter
              (fun p => p.line_id == db.next_line_id) := by
          rw [List.foldl_cons]
          apply upsertFold_people_frame dict t _ _ step
          · rw [upsertLine_next_line_id, h]
            simp
          · intro ld' hld' l' hdg
            have hdf' := inv.dict_find ld' (List.mem_cons_of_mem ld hld')
            rw [hdg] at hdf'
            have hl'mem : l' ∈ db.lines := List.mem_of_find?_eq_some hdf'.symm
            have := inv.lines_id_lt l' hl'mem
            omega
        have hest : ((upsertLine dict db ld).people.filter
            (fun p => p.line_id == db.next_line_id)).map (fun p => p.name) =
            (ld.people.getD []).map (fun pd => pd.name) := by
          unfold upsertLine
          rw [h]
          show ((addAllPeople _ _ _).people.filter _).map _ = _
          apply addAllPeople_names
          intro p hp
          have := inv.people_line_lt p hp
          omega
        rw [hxid, hframe, hest]
      · -- matched line: resolved id is the stored line's id
        rw [h] at hdf
        have hlmem : l ∈ db.lines := List.mem_of_find?_eq_some hdf.symm
        have hlname : l.name = ld.name := by
          have := List.find?_some hdf.symm
          simpa using this
        have hxid : x.id = l.id := by
          rcases List.mem_append.1 hx with hx1 | hx2
          · rcases List.mem_map.1 hx1 with ⟨x0, hx0, rfl⟩
            rw [updTime_name] at hxname
            have hx0l : x0 = l := eq_of_nodup_key (fun y => y.name)
              inv.lines_names_nodup hx0 hlmem (by
                show x0.name = l.name
                rw [hxname, hlname])
            rw [updTime_id, hx0l]
          · obtain ⟨-, ld', hld', hnone', h3, -⟩ :=
              freshLines_mem dict (ld :: t) db.next_line_id x hx2
            rcases List.mem_cons.1 hld' with rfl | hld'2
            · rw [h] at hnone'
              cases hnone'
            · exact absurd (h3 ▸ hxname) (hldt ld' hld'2)
        have hframe : ((ld :: t).foldl (upsertLine dict) db).people.filter
            (fun p => p.line_id == l.id) =
            (upsertLine dict db ld).people.filter
              (fun p => p.line_id == l.id) := by
          rw [List.foldl_cons]
          apply upsertFold_people_frame dict t _ _ step
          · rw [upsertLine_next_line_id, h]
            simp
            exact inv.lines_id_lt l hlmem
          · intro ld' hld' l' hdg
            have hdf' := inv.dict_find ld' (List.mem_cons_of_mem ld hld')
            rw [hdg] at hdf'
            have hl'mem : l' ∈ db.lines := List.mem_of_find?_eq_some hdf'.symm
            have hl'name : l'.name = ld'.name := by
              have := List.find?_some hdf'.symm
              simpa using this
            intro he
            have : l = l' := eq_of_nodup_key (fun y => y.id)
              inv.lines_ids_nodup hlmem hl'mem he
            subst this
            exact hldt ld' hld' (hl'name ▸ hlname)
        have hest : (((upsertLine dict db ld).people.filter
            (fun p => p.line_id == l.id)).map (fun p => p.name)).Perm
            ((ld.people.getD []).map (fun pd => pd.name)) := by
          unfold upsertLine
          rw [h]
          show (((reconcileLinePeople _ _ _).people.filter _).map _).Perm _
          exact reconcileLinePeople_names_perm _ l.id (ld.people.getD [])
            (((List.filter_sublist db.people).map _).nodup
              inv.people_ids_nodup)
            hnodup (hagree l h)
        rw [hxid, hframe]
        exact hest
    · -- ld is further down: transport the hypotheses one step
      rw [List.foldl_cons] at hx ⊢
      apply ih (upsertLine dict db ld0) step ld hld2 hnodup _ x hx hxname
      intro l hdg p hp pd hpd hpid
      have hdf := inv.dict_find ld (List.mem_cons_of_mem ld0 hld2)
      rw [hdg] at hdf
      have hlmem : l ∈ db.lines := List.mem_of_find?_eq_some hdf.symm
      have hlname : l.name = ld.name := by
        have := List.find?_some hdf.symm
        simpa using this
      have hof : (upsertLine dict db ld0).people.filter
          (fun p => p.line_id == l.id) =
          db.people.filter (fun p => p.line_id == l.id) := by
        apply upsertLine_people_of_ne
        · intro l0 hdg0 he
          have hdf0 := inv.dict_find ld0 (List.mem_cons_self ld0 t)
          rw [hdg0] at hdf0
          have hl0mem : l0 ∈ db.lines := List.mem_of_find?_eq_some hdf0.symm
          have hl0name : l0.name = ld0.name := by
            have := List.find?_some hdf0.symm
            simpa using this
          have : l = l0 := eq_of_nodup_key (fun y => y.id)
            inv.lines_ids_nodup hlmem hl0mem he
          subst this
          exact hldt ld hld2 (hlname ▸ hl0name)
        · intro _
          have := inv.lines_id_lt l hlmem
          omega
      rw [hof] at hp
      exact hagree l hdg p hp pd hpd hpid

/-! ## Whole-save characterization -/

/-- The delete phase establishes the upsert-loop invariant.  `ls` is the
stored line list, given with `db.lines = ls` so the statement applies
verbatim at a database value whose `lines` field only reduces to it. -/
theorem foldInv_after_delete (db : DBState) (ls : List Line)
    (ds : List LineData) (hdb : db.lines = ls) (hwf : db.WF)
    (hn : (ls.map (fun l => l.name)).Nodup)
    (hds : (ds.map (fun ld => ld.name)).Nodup) :
    FoldInv (linesDict ls) ds (deleteStaleLines db (linesDict ls) ds) := by
  subst hdb
  have hlines := @deleteStaleLines_lines_nodup db db.lines ds rfl hn
    hwf.lines_ids_nodup
  have hpeople := deleteStaleLines_people ds (linesDict db.lines) db
  have hcnt := deleteStaleLines_counters db (linesDict db.lines) ds
  constructor
  · exact hds
  · rw [hlines]
    exact ((List.filter_sublist db.lines).map _).nodup hn
  · rw [hlines]
    exact ((List.filter_sublist db.lines).map _).nodup hwf.lines_ids_nodup
  · rw [hlines, hcnt.1]
    intro l hl
    exact hwf.lines_id_lt l (List.mem_of_mem_filter hl)
  · rw [hpeople]
    exact ((List.filter_sublist db.people).map _).nodup hwf.people_ids_nodup
  · rw [hpeople, hcnt.2.1]
    intro p hp
    exact hwf.people_id_lt p (List.mem_of_mem_filter hp)
  · rw [hpeople, hcnt.1]
    intro p hp
    exact hwf.people_line_lt p (List.mem_of_mem_filter hp)
  · intro ld hld
    rw [dictGet_linesDict hn, hlines]
    rcases hf : db.lines.find? (fun x => x.name == ld.name) with _ | x
    · rw [hf]
      have hnone := List.find?_eq_none.1 hf
      exact (List.find?_eq_none.2 (fun y hy =>
        hnone y (List.mem_of_mem_filter hy))).symm
    · rw [hf]
      have hxmem : x ∈ db.lines := List.mem_of_find?_eq_some hf
      have hxname : x.name = ld.name := by
        have := List.find?_some hf
        simpa using this
      have hxkeep : x ∈ db.lines.filter (fun l =>
          ds.any (fun ld => ld.name == l.name)) := by
        rw [List.mem_filter]
        refine ⟨hxmem, ?_⟩
        rw [List.any_eq_true]
        exact ⟨ld, hld, by simp [hxname]⟩
      exact (find?_key_eq (fun y => y.name)
        (((List.filter_sublist db.lines).map _).nodup hn) hxkeep hxname).symm

/-- A save with an explicit config body decomposes into the three phases
applied in order. -/
theorem applyStateDiff_decomp (state : StateData) (db : DBState)
    (cd : ConfigData) (hc : state.config = some cd) :
    applyStateDiff state db =
      reconcileWaitQueue
        ((cd.lines.getD []).foldl (upsertLine (linesDict db.lines))
          (deleteStaleLines { db with config := some (configOfData cd) }
            (linesDict db.lines) (cd.lines.getD [])))
        (cd.generalWaitQueue.getD []) := by
  unfold applyStateDiff
  rw [hc]
  rfl

theorem upsertFold_gwq1 (dict : List (String × Line)) (ds : List LineData)
    (db : DBState) :
    (ds.foldl (upsertLine dict) db).general_wait_queue =
      db.general_wait_queue :=
  congrArg Prod.fst (upsertFold_gwq dict ds db)

theorem upsertFold_gwq2 (dict : List (String × Line)) (ds : List LineData)
    (db : DBState) :
    (ds.foldl (upsertLine dict) db).next_gwq_id = db.next_gwq_id :=
  congrArg Prod.snd (upsertFold_gwq dict ds db)

/-- The line rows after a whole save: surviving stored rows, times
overwritten, followed by the freshly inserted rows. -/
theorem applyStateDiff_lines_eq (state : StateData) (db : DBState)
    (cd : ConfigData) (hc : state.config = some cd) (hwf : db.WF)
    (hn : (db.lines.map (fun l => l.name)).Nodup)
    (hds : ((cd.lines.getD []).map (fun ld => ld.name)).Nodup) :
    (applyStateDiff state db).lines =
      (db.lines.filter (fun l =>
        (cd.lines.getD []).any (fun ld => ld.name == l.name))).map
          (updTime (cd.lines.getD [])) ++
      freshLines (linesDict db.lines) (cd.lines.getD []) db.next_line_id := by
  have hwf1 : DBState.WF { db with config := some (configOfData cd) } :=
    ⟨hwf.lines_ids_nodup, hwf.lines_id_lt, hwf.people_ids_nodup,
      hwf.people_id_lt, hwf.people_line_lt, hwf.gwq_ids_nodup, hwf.gwq_id_lt⟩
  have hinv := foldInv_after_delete
    { db with config := some (configOfData cd) } db.lines
    (cd.lines.getD []) rfl hwf1 hn hds
  rw [applyStateDiff_decomp state db cd hc, (reconcileWaitQueue_frame _ _).1,
    upsertFold_lines _ _ _ hinv,
    @deleteStaleLines_lines_nodup
      { db with config := some (configOfData cd) } db.lines _ rfl hn
      hwf.lines_ids_nodup,
    (deleteStaleLines_counters _ _ _).1]

/-- After a whole save, the line row carrying an incoming line's name holds
exactly that line's multiset of people names — provided the incoming ids
are duplicate-free for that line and every incoming person whose id
matches a stored person of the name-matched stored line agrees with it on
the name. -/
theorem applyStateDiff_people_perm (state : StateData) (db : DBState)
    (cd : ConfigData) (hc : state.config = some cd) (hwf : db.WF)
    (hn : (db.lines.map (fun l => l.name)).Nodup)
    (hds : ((cd.lines.getD []).map (fun ld => ld.name)).Nodup)
    (ld : LineData) (hld : ld ∈ cd.lines.getD [])
    (hnodup : ((ld.people.getD []).map (fun pd => pd.id)).Nodup)
    (hagree : ∀ l ∈ db.lines, l.name = ld.name →
      ∀ p ∈ db.people, p.line_id = l.id →
        ∀ pd ∈ ld.people.getD [], p.id = pd.id → p.name = pd.name) :
    ∀ x ∈ (applyStateDiff state db).lines, x.name = ld.name →
      (((applyStateDiff state db).people.filter
          (fun p => p.line_id == x.id)).map (fun p => p.name)).Perm
        ((ld.people.getD []).map (fun pd => pd.name)) := by
  intro x hx hxname
  rw [applyStateDiff_decomp state db cd hc] at hx ⊢
  rw [(reconcileWaitQueue_frame _ _).1] at hx
  rw [(reconcileWaitQueue_frame _ _).2.1]
  have hwf1 : DBState.WF { db with config := some (configOfData cd) } :=
    ⟨hwf.lines_ids_nodup, hwf.lines_id_lt, hwf.people_ids_nodup,
      hwf.people_id_lt, hwf.people_line_lt, hwf.gwq_ids_nodup, hwf.gwq_id_lt⟩
  have hinv := foldInv_after_delete
    { db with config := some (configOfData cd) } db.lines
    (cd.lines.getD []) rfl hwf1 hn hds
  apply upsertFold_people_perm (linesDict db.lines) (cd.lines.getD []) _ hinv
    ld hld hnodup _ x hx hxname
  intro l hdg p hp pd hpd hpid
  rw [dictGet_linesDict hn] at hdg
  have hlmem : l ∈ db.lines := List.mem_of_find?_eq_some hdg
  have hlname : l.name = ld.name := by
    have := List.find?_some hdg
    simpa using this
  rw [List.mem_filter] at hp
  obtain ⟨hp1, hp2⟩ := hp
  rw [deleteStaleLines_people] at hp1
  have hp3 : p ∈ db.people := List.mem_of_mem_filter hp1
  exact hagree l hlmem hlname p hp3 (by simpa using hp2) pd hpd hpid

/-- After a whole save, the wait queue holds exactly the incoming multiset
of names — same provisos as for a line's people. -/
theorem applyStateDiff_gwq_perm (state : StateData) (db : DBState)
    (cd : ConfigData) (hc : state.config = some cd)
    (hids : (db.general_wait_queue.map (fun g => g.id)).Nodup)
    (hq : ((cd.generalWaitQueue.getD []).map (fun pd => pd.id)).Nodup)
    (hagree : ∀ g ∈ db.general_wait_queue, ∀ pd ∈ cd.generalWaitQueue.getD [],
      g.id = pd.id → g.name = pd.name) :
    ((applyStateDiff state db).general_wait_queue.map
        (fun g => g.name)).Perm
      ((cd.generalWaitQueue.getD []).map (fun pd => pd.name)) := by
  rw [applyStateDiff_decomp state db cd hc]
  have hg : ((cd.lines.getD []).foldl (upsertLine (linesDict db.lines))
      (deleteStaleLines { db with config := some (configOfData cd) }
        (linesDict db.lines) (cd.lines.getD []))).general_wait_queue =
      db.general_wait_queue := by
    rw [upsertFold_gwq1, deleteStaleLines_gwq]
  apply reconcileWaitQueue_names_perm
  · rw [hg]
    exact hids
  · exact hq
  · intro g hg2 pd hpd
    rw [hg] at hg2
    exact hagree g hg2 pd hpd

theorem updTime_eq_of_find {ds : List LineData} {x : Line} {ld : LineData}
    (hf : ds.find? (fun ld => ld.name == x.name) = some ld) :
    updTime ds x = { x with time := ld.time } := by
  unfold updTime
  rw [hf]

/-- After a whole save, the (name, time) pairs of the line rows are exactly
the incoming ones, as a multiset. -/
theorem applyStateDiff_name_time_perm (state : StateData) (db : DBState)
    (cd : ConfigData) (hc : state.config = some cd) (hwf : db.WF)
    (hn : (db.lines.map (fun l => l.name)).Nodup)
    (hds : ((cd.lines.getD []).map (fun ld => ld.name)).Nodup) :
    ((applyStateDiff state db).lines.map (fun l => (l.name, l.time))).Perm
      ((cd.lines.getD []).map (fun ld => (ld.name, ld.time))) := by
  rw [applyStateDiff_lines_eq state db cd hc hwf hn hds, List.map_append]
  have hkept : ((db.lines.filter (fun l =>
      (cd.lines.getD []).any (fun ld => ld.name == l.name))).map
        (updTime (cd.lines.getD []))).map (fun l => (l.name, l.time)) =
      ((db.lines.filter (fun l =>
        (cd.lines.getD []).any (fun ld => ld.name == l.name))).map
          (fun x => x.name)).map (fun n => (n, (((cd.lines.getD []).find?
            (fun ld => ld.name == n)).map (fun ld => ld.time)).getD "")) := by
    rw [List.map_map, List.map_map]
    apply List.map_congr_left
    intro x hx
    rw [List.mem_filter] at hx
    obtain ⟨hx1, hx2⟩ := hx
    rw [List.any_eq_true] at hx2
    obtain ⟨ld0, hld0, hld0b⟩ := hx2
    have hld0n : ld0.name = x.name := by simpa using hld0b
    have hfind : (cd.lines.getD []).find? (fun ld => ld.name == x.name) =
        some ld0 :=
      find?_key_eq (fun ld => ld.name) hds hld0 hld0n
    show ((updTime (cd.lines.getD []) x).name,
      (updTime (cd.lines.getD []) x).time) = _
    rw [updTime_eq_of_find hfind]
    show (x.name, ld0.time) =
      (x.name, (((cd.lines.getD []).find?
        (fun ld => ld.name == x.name)).map (fun ld => ld.time)).getD "")
    rw [hfind]
    rfl
  have hfresh : (freshLines (linesDict db.lines) (cd.lines.getD [])
      db.next_line_id).map (fun l => (l.name, l.time)) =
      ((freshLines (linesDict db.lines) (cd.lines.getD [])
        db.next_line_id).map (fun l => l.name)).map
          (fun n => (n, (((cd.lines.getD []).find?
            (fun ld => ld.name == n)).map (fun ld => ld.time)).getD "")) := by
    rw [List.map_map]
    apply List.map_congr_left
    intro x hx
    obtain ⟨-, ld, hld, -, hname, htime⟩ := freshLines_mem _ _ _ x hx
    have hfind : (cd.lines.getD []).find? (fun ld' => ld'.name == x.name) =
        some ld :=
      find?_key_eq (fun ld => ld.name) hds hld hname.symm
    show (x.name, x.time) =
      (x.name, (((cd.lines.getD []).find?
        (fun ld' => ld'.name == x.name)).map (fun ld => ld.time)).getD "")
    rw [hfind, htime]
    rfl
  have hrhs : (cd.lines.getD []).map (fun ld => (ld.name, ld.time)) =
      ((cd.lines.getD []).map (fun ld => ld.name)).map
        (fun n => (n, (((cd.lines.getD []).find?
          (fun ld => ld.name == n)).map (fun ld => ld.time)).getD "")) := by
    rw [List.map_map]
    apply List.map_congr_left
    intro ld hld
    have hfind : (cd.lines.getD []).find? (fun ld' => ld'.name == ld.name) =
        some ld :=
      find?_key_eq (fun ld => ld.name) hds hld rfl
    show (ld.name, ld.time) =
      (ld.name, (((cd.lines.getD []).find?
        (fun ld' => ld'.name == ld.name)).map (fun ld => ld.time)).getD "")
    rw [hfind]
    rfl
  rw [hkept, hfresh, hrhs, ← List.map_append]
  apply key_perm_map
  · -- kept names ++ fresh names is duplicate-free
    refine List.Nodup.append
      (((List.filter_sublist db.lines).map _).nodup hn) ?_ ?_
    · rw [freshLines_names]
      exact ((List.filter_sublist (cd.lines.getD [])).map _).nodup hds
    · intro a ha hb
      rcases List.mem_map.1 ha with ⟨x, hx, rfl⟩
      rcases List.mem_map.1 hb with ⟨y, hy, hyn⟩
      obtain ⟨-, ld, hld, hnone, hname, -⟩ := freshLines_mem _ _ _ y hy
      rw [dictGet_linesDict hn] at hnone
      have := List.find?_eq_none.1 hnone x (List.mem_of_mem_filter hx)
      simp at this
      exact this (by rw [← hyn]; exact hname)
  · exact hds
  · intro k
    constructor
    · intro hk
      rcases List.mem_append.1 hk with hk1 | hk2
      · rcases List.mem_map.1 hk1 with ⟨x, hx, rfl⟩
        rw [List.mem_filter] at hx
        obtain ⟨-, hx2⟩ := hx
        rw [List.any_eq_true] at hx2
        obtain ⟨ld0, hld0, hld0b⟩ := hx2
        have : ld0.name = x.name := by simpa using hld0b
        exact this ▸ List.mem_map_of_mem _ hld0
      · rw [freshLines_names] at hk2
        rcases List.mem_map.1 hk2 with ⟨ld, hld, rfl⟩
        exact List.mem_map_of_mem _ (List.mem_of_mem_filter hld)
    · intro hk
      rcases List.mem_map.1 hk with ⟨ld, hld, rfl⟩
      rcases hdg : dictGet (linesDict db.lines) ld.name with _ | x
      · refine List.mem_append.2 (Or.inr ?_)
        rw [freshLines_names]
        refine List.mem_map_of_mem _ ?_
        rw [List.mem_filter]
        exact ⟨hld, by rw [hdg]; rfl⟩
      · refine List.mem_append.2 (Or.inl ?_)
        rw [dictGet_linesDict hn] at hdg
        have hxmem : x ∈ db.lines := List.mem_of_find?_eq_some hdg
        have hxname : x.name = ld.name := by
          have := List.find?_some hdg
          simpa using this
        refine hxname ▸ List.mem_map_of_mem _ ?_
        rw [List.mem_filter]
        refine ⟨hxmem, ?_⟩
        rw [List.any_eq_true]
        exact ⟨ld, hld, by simp [hxname]⟩

/-- **C1.** A save that supplies a claimed version `v` is accepted by the
staleness check whenever `v ≥ current - 5` (the save proceeds, and with a
healthy commit it succeeds); whenever `v ≤ current - 6` the call is
rejected with the conflict outcome and performs no mutation: both ingress
handlers leave the stored document and the version counter unchanged. -/
theorem staleness_window_boundary (state : StateData) (db : DBState)
    (ver : Nat) (v : Int) (ts : Nat) (commitOk : Bool)
    (hv : state.version = some v) :
    ((ver : Int) - 5 ≤ v →
      (∀ msg, save_state_to_db state db ver state.version commitOk ≠
        Except.error (SaveError.conflict msg)) ∧
      save_state_to_db state db ver state.version true =
        Except.ok (applyStateDiff state db, ver + 1)) ∧
    (v ≤ (ver : Int) - 6 →
      save_state_to_db state db ver state.version commitOk =
        Except.error (SaveError.conflict conflictMessage) ∧
      (update_state state db ver ts commitOk).2.1 = db ∧
      (update_state state db ver ts commitOk).2.2 = ver ∧
      (handle_state_saved state db ver ts commitOk).2.1 = db ∧
      (handle_state_saved state db ver ts commitOk).2.2 = ver) := by
  have hconf : versionConflict state.version ver = decide (v < (ver : Int) - 5) := by
    rw [hv]; simp [versionConflict]
  constructor
  · intro hle
    have hc : versionConflict state.version ver = false := by
      rw [hconf]; simp; omega
    constructor
    · intro msg
      cases commitOk <;> simp [save_state_to_db, hc]
    · simp [save_state_to_db, hc]
  · intro hle
    have hc : versionConflict state.version ver = true := by
      rw [hconf]; simp; omega
    have hs : save_state_to_db state db ver state.version commitOk =
        Except.error (SaveError.conflict conflictMessage) := by
      simp [save_state_to_db, hc]
    refine ⟨hs, ?_, ?_, ?_, ?_⟩ <;>
      simp [update_state, handle_state_saved, hs]

theorem staleness_window_boundary_witness :
    save_state_to_db payloadV4 dbA 10 payloadV4.version true =
      Except.error (SaveError.conflict conflictMessage) ∧
    (update_state payloadV4 dbA 10 0 true).2.1 = dbA ∧
    save_state_to_db payloadV4 dbA 9 payloadV4.version true =
      Except.ok (applyStateDiff payloadV4 dbA, 10) := by
  have h10 := staleness_window_boundary payloadV4 dbA 10 4 0 true rfl
  have h9 := staleness_window_boundary payloadV4 dbA 9 4 0 true rfl
  refine ⟨(h10.2 (by decide)).1, (h10.2 (by decide)).2.1, (h9.1 (by decide)).2⟩

/-- **C2.** The version counter is non-decreasing and advances by exactly
one per successful commit: a successful `save_state_to_db` returns
`ver + 1`; a save whose commit fails errors out, and (rollback) both
ingress handlers keep the stored document and the version counter exactly
as they were; every handler changes the counter by 0 or 1; reads never
change it. -/
theorem version_counter_discipline (state : StateData) (db : DBState)
    (ver : Nat) (ts : Nat) (commitOk : Bool) :
    (∀ db1 ver1, save_state_to_db state db ver state.version commitOk =
      Except.ok (db1, ver1) → ver1 = ver + 1) ∧
    (versionConflict state.version ver = false →
      save_state_to_db state db ver state.version false =
        Except.error SaveError.storage ∧
      (update_state state db ver ts false).2.1 = db ∧
      (update_state state db ver ts false).2.2 = ver ∧
      (handle_state_saved state db ver ts false).2.1 = db ∧
      (handle_state_saved state db ver ts false).2.2 = ver) ∧
    ((update_state state db ver ts commitOk).2.2 = ver ∨
      (update_state state db ver ts commitOk).2.2 = ver + 1) ∧
    ((handle_state_saved state db ver ts commitOk).2.2 = ver ∨
      (handle_state_saved state db ver ts commitOk).2.2 = ver + 1) ∧
    (get_state db ver ts).2.2 = ver ∧
    (handle_get_state db ver ts).2.2 = ver ∧
    (handle_connect db ver ts).2.2 = ver := by
  refine ⟨?_, ?_, ?_, ?_, rfl, rfl, rfl⟩
  · intro db1 ver1 h
    unfold save_state_to_db at h
    split at h
    · exact absurd h (by simp)
    · split at h
      · simp at h; omega
      · exact absurd h (by simp)
  · intro hc
    have hs : save_state_to_db state db ver state.version false =
        Except.error SaveError.storage := by
      simp [save_state_to_db, hc]
    refine ⟨hs, ?_, ?_, ?_, ?_⟩ <;>
      simp [update_state, handle_state_saved, hs]
  · unfold update_state
    rcases h : save_state_to_db state db ver state.version commitOk with e | p
    · cases e <;> simp
    · rcases p with ⟨db1, ver1⟩
      have : ver1 = ver + 1 := by
        unfold save_state_to_db at h
        split at h
        · exact absurd h (by simp)
        · split at h
          · simp at h; omega
          · exact absurd h (by simp)
      subst this; simp
  · unfold handle_state_saved
    rcases h : save_state_to_db state db ver state.version commitOk with e | p
    · cases e <;> simp
    · rcases p with ⟨db1, ver1⟩
      have : ver1 = ver + 1 := by
        unfold save_state_to_db at h
        split at h
        · exact absurd h (by simp)
        · split at h
          · simp at h; omega
          · exact absurd h (by simp)
      subst this; simp

theorem version_counter_discipline_witness :
    (∀ db1 ver1, save_state_to_db payloadEmpty dbA 3 payloadEmpty.version true =
      Except.ok (db1, ver1) → ver1 = 3 + 1) ∧
    save_state_to_db payloadEmpty dbA 3 payloadEmpty.version false =
      Except.error SaveError.storage ∧
    (update_state payloadEmpty dbA 3 0 false).2.1 = dbA ∧
    (get_state dbA 3 0).2.2 = 3 := by
  have h := version_counter_discipline payloadEmpty dbA 3 0 true
  have h2 := version_counter_discipline payloadEmpty dbA 3 0 false
  exact ⟨h.1, (h2.2.1 (by decide)).1, (h2.2.1 (by decide)).2.1,
    h.2.2.2.2.2.1⟩

/-- **C10.** The staleness check bounds only how far *behind* a claimed
version may be: any claimed version at least `current - 5` — including one
arbitrarily far ahead of the counter, as after a counter-resetting restart
— and any save that supplies no claimed version at all pass the version
check and are never rejected with the conflict outcome. -/
theorem staleness_check_only_bounds_behind (state : StateData) (db : DBState)
    (ver : Nat) (commitOk : Bool) :
    (∀ v : Int, (ver : Int) - 5 ≤ v → ∀ msg,
      save_state_to_db state db ver (some v) commitOk ≠
        Except.error (SaveError.conflict msg)) ∧
    (∀ msg, save_state_to_db state db ver none commitOk ≠
      Except.error (SaveError.conflict msg)) := by
  constructor
  · intro v hle msg
    have hc : versionConflict (some v) ver = false := by
      simp [versionConflict]; omega
    cases commitOk <;> simp [save_state_to_db, hc]
  · intro msg
    cases commitOk <;> simp [save_state_to_db, versionConflict]

theorem staleness_check_only_bounds_behind_witness :
    save_state_to_db payloadEmpty emptyDB 0 (some 1000000) true ≠
      Except.error (SaveError.conflict conflictMessage) :=
  (staleness_check_only_bounds_behind payloadEmpty emptyDB 0 true).1
    1000000 (by decide) conflictMessage

/-- A payload with no `config` key whose top-level keys carry line "A". -/
def payloadNoConfigKey : StateData :=
  { version := none
    config := none
    toplevel :=
      { ConfigData.empty with
        lines := some [{ name := "A", time := "t",
                         people := some [{ id := 1, name := "Alice" }] }] } }

/-- **C5, counterexample.** The claim says a payload with no `config` key is
reconciled against its top-level keys ("treated as the entire payload were
the config body").  It is not: `state.get("config", {})` falls back to the
EMPTY dict, so against a store holding line "A", a config-less payload
whose top level carries line "A" deletes that line, while the behavior the
spec describes would keep it. -/
theorem config_wrapping_counterexample :
    (applyStateDiff payloadNoConfigKey dbA).lines = [] ∧
    (applyStateDiff payloadNoConfigKey dbA).people = [] ∧
    (applyStateDiffSpecWrap payloadNoConfigKey dbA).lines =
      [{ id := 1, name := "A", time := "t" }] ∧
    applyStateDiff payloadNoConfigKey dbA ≠
      applyStateDiffSpecWrap payloadNoConfigKey dbA := by
  refine ⟨rfl, rfl, rfl, ?_⟩
  decide

/-- **C5, amended.** A payload with no `config` key is treated as if the
config body were the empty dict: every config field takes its default, the
line list and wait queue are treated as empty (so every stored line and
wait-queue entry is deleted), and the top-level keys of the payload are
ignored — the result is identical to saving an explicitly empty config
body. -/
theorem config_missing_treated_as_empty (state : StateData) (db : DBState)
    (h : state.config = none) :
    applyStateDiff state db =
      applyStateDiff { version := state.version,
                       config := some ConfigData.empty,
                       toplevel := ConfigData.empty } db ∧
    (applyStateDiff state db).config = some defaultConfig ∧
    (applyStateDiff state db).general_wait_queue = [] := by
  refine ⟨?_, ?_, ?_⟩
  · unfold applyStateDiff
    rw [h]
    rfl
  · rw [applyStateDiff_config, h]
    rfl
  · unfold applyStateDiff
    rw [h]
    show (reconcileWaitQueue _ []).general_wait_queue = []
    unfold reconcileWaitQueue
    simp

theorem config_missing_treated_as_empty_witness :
    (applyStateDiff payloadNoConfigKey dbA).config = some defaultConfig ∧
    (applyStateDiff payloadNoConfigKey dbA).general_wait_queue = [] :=
  ⟨(config_missing_treated_as_empty payloadNoConfigKey dbA rfl).2.1,
   (config_missing_treated_as_empty payloadNoConfigKey dbA rfl).2.2⟩

/-- A payload submitting the non-numeric `maxPeoplePerLine` "abc". -/
def payloadAbc : StateData :=
  { version := none
    config := some { ConfigData.empty with maxPeoplePerLine := some "abc" }
    toplevel := ConfigData.empty }

/-- **C6, counterexample.** The claim says a non-numeric `maxPeoplePerLine`
such as "abc" is coerced to the default "10" and that a load always returns
a valid positive-integer string.  The code stores `config_data.get(...)`
verbatim: after saving "abc" the stored and reloaded value is "abc". -/
theorem max_people_coercion_counterexample :
    (applyStateDiff payloadAbc dbA).config =
      some { defaultConfig with max_people_per_line := "abc" } ∧
    (get_state_from_db (applyStateDiff payloadAbc dbA) 1 0).1.config.maxPeoplePerLine
      = "abc" ∧
    (get_state_from_db (applyStateDiff payloadAbc dbA) 1 0).1.config.maxPeoplePerLine
      ≠ "10" := by
  refine ⟨rfl, rfl, ?_⟩
  decide

/-- **C6, amended.** `maxPeoplePerLine` falls back to the default "10" only
when the key is absent; a present value — numeric or not — is stored and
returned verbatim.  After a load the value is whatever string was last
stored, the default "10" only in the absent case. -/
theorem max_people_default_only_when_absent (state : StateData)
    (db : DBState) (cd : ConfigData) (ver ts : Nat)
    (h : state.config = some cd) :
    (cd.maxPeoplePerLine = none →
      (get_state_from_db (applyStateDiff state db) ver ts).1.config.maxPeoplePerLine
        = "10") ∧
    (∀ s, cd.maxPeoplePerLine = some s →
      (get_state_from_db (applyStateDiff state db) ver ts).1.config.maxPeoplePerLine
        = s) := by
  have hc : (applyStateDiff state db).config = some (configOfData cd) := by
    rw [applyStateDiff_config, h]
    rfl
  rw [get_state_from_db_some _ _ _ _ hc]
  constructor
  · intro hnone
    simp [docOf, configOfData, hnone]
  · intro s hsome
    simp [docOf, configOfData, hsome]

theorem max_people_default_only_when_absent_witness :
    (get_state_from_db (applyStateDiff payloadAbc dbA) 1 0).1.config.maxPeoplePerLine
      = "abc" ∧
    (get_state_from_db (applyStateDiff payloadEmpty dbA) 1 0).1.config.maxPeoplePerLine
      = "10" := by
  have h1 := (max_people_default_only_when_absent payloadAbc dbA
    { ConfigData.empty with maxPeoplePerLine := some "abc" } 1 0 rfl).2 "abc" rfl
  have h2 := (max_people_default_only_when_absent payloadEmpty dbA
    ConfigData.empty 1 0 rfl).1 rfl
  exact ⟨h1, h2⟩

/-- **C7, counterexample.** The claim says a staleness-rejected update is
answered with a conflict status that includes the current state.  Both
ingress paths answer the conflict with only the `ValueError` message: the
REST body is `{"status": "conflict", "message": ...}` with no state, and
the push channel emits `state_conflict` carrying only the message. -/
theorem conflict_response_counterexample :
    (update_state payloadV4 dbA 10 0 true).1 =
      { httpStatus := 409, status := "conflict",
        message := some conflictMessage, state := none } ∧
    (update_state payloadV4 dbA 10 0 true).1.state = none ∧
    (handle_state_saved payloadV4 dbA 10 0 true).1 =
      SocketEmit.state_conflict conflictMessage := by
  exact ⟨rfl, rfl, rfl⟩

/-- **C7, amended.** A state-update rejected as too stale is answered with a
conflict status on both ingress paths — HTTP 409 `{"status": "conflict"}`
on REST, a `state_conflict` event on the push channel — carrying only the
"refresh and try again" message; the current state is NOT included, the
client must fetch it separately. -/
theorem conflict_response_message_only (state : StateData) (db : DBState)
    (ver : Nat) (ts : Nat) (commitOk : Bool)
    (h : versionConflict state.version ver = true) :
    (update_state state db ver ts commitOk).1 =
      { httpStatus := 409, status := "conflict",
        message := some conflictMessage, state := none } ∧
    (handle_state_saved state db ver ts commitOk).1 =
      SocketEmit.state_conflict conflictMessage := by
  have hs : save_state_to_db state db ver state.version commitOk =
      Except.error (SaveError.conflict conflictMessage) := by
    simp [save_state_to_db, h]
  constructor <;> simp [update_state, handle_state_saved, hs]

theorem conflict_response_message_only_witness :
    (update_state payloadV4 dbA 10 0 true).1 =
      { httpStatus := 409, status := "conflict",
        message := some conflictMessage, state := none } :=
  (conflict_response_message_only payloadV4 dbA 10 0 true (by decide)).1

/-- **C8, counterexample.** The claim says reads mutate nothing for every
starting state, including one with no Config row.  On a configless store a
read creates and commits a default Config row: `get_state_from_db` (hence
the GET route and the push-channel pull) returns a changed database. -/
theorem read_side_effect_counterexample :
    emptyDB.config = none ∧
    (get_state_from_db emptyDB 0 0).2.config = some defaultConfig ∧
    (get_state_from_db emptyDB 0 0).2 ≠ emptyDB ∧
    (handle_get_state emptyDB 0 0).2.1 ≠ emptyDB := by
  refine ⟨rfl, rfl, ?_, ?_⟩ <;> decide

/-- **C8, amended.** Every read — the GET state-fetch, the push-channel pull
and the on-connect push — returns the current document, never advances the
version counter, and never touches the line, person or wait-queue rows; if
a Config row exists the read changes nothing at all, and on a store with no
Config row yet its one side effect is creating (and committing) the default
Config row. -/
theorem read_paths_effect (db : DBState) (ver ts : Nat) :
    (get_state db ver ts).2.2 = ver ∧
    (handle_get_state db ver ts).2.2 = ver ∧
    (handle_connect db ver ts).2.2 = ver ∧
    (get_state_from_db db ver ts).2.lines = db.lines ∧
    (get_state_from_db db ver ts).2.people = db.people ∧
    (get_state_from_db db ver ts).2.general_wait_queue =
      db.general_wait_queue ∧
    (∀ c, db.config = some c → (get_state_from_db db ver ts).2 = db) ∧
    (db.config = none →
      (get_state_from_db db ver ts).2 = { db with config := some defaultConfig }) ∧
    (get_state db ver ts).2.1 = (get_state_from_db db ver ts).2 ∧
    (handle_get_state db ver ts).2.1 = (get_state_from_db db ver ts).2 ∧
    (handle_connect db ver ts).2.1 = (get_state_from_db db ver ts).2 := by
  unfold get_state handle_get_state handle_connect get_state_from_db
  rcases db.config with _ | c <;>
    simp

theorem read_paths_effect_witness :
    (get_state dbA 7 0).2.2 = 7 ∧
    (get_state_from_db dbA 7 0).2 = dbA ∧
    (get_state_from_db emptyDB 7 0).2 =
      { emptyDB with config := some defaultConfig } := by
  refine ⟨(read_paths_effect dbA 7 0).1, ?_, ?_⟩
  · exact (read_paths_effect dbA 7 0).2.2.2.2.2.2.1 defaultConfig rfl
  · exact (read_paths_effect emptyDB 7 0).2.2.2.2.2.2.2.1 rfl

/-- A payload renaming the matched person id 1 from "Alice" to "Bob". -/
def payloadRename : StateData :=
  { version := none
    config := some { ConfigData.empty with
      lines := some [{ name := "A", time := "t",
                       people := some [{ id := 1, name := "Bob" }] }] }
    toplevel := ConfigData.empty }

/-- **C3, counterexample.** The round-trip claim fails as stated: a person
entry whose id matches a stored person of the same line is left in place
with its STORED name — the incoming name is never written.  Saving, into a
store where line "A" holds person 1 "Alice", a document whose line "A"
holds person 1 "Bob", and reloading, yields "Alice": the multiset of
person names per line differs from the incoming document's. -/
theorem round_trip_counterexample :
    (applyStateDiff payloadRename dbA).people =
      [{ id := 1, line_id := 1, name := "Alice" }] ∧
    (get_state_from_db (applyStateDiff payloadRename dbA) 1 0).1.config.lines.map
        (fun lo => lo.people.map (fun po => po.name)) = [["Alice"]] ∧
    ¬(get_state_from_db (applyStateDiff payloadRename dbA) 1 0).1.config.lines.map
        (fun lo => lo.people.map (fun po => po.name)) = [["Bob"]] := by
  refine ⟨rfl, rfl, ?_⟩
  decide

/-- **C3, amended.** Round-trip modulo server-assigned ids and timestamps,
with the provisos the code forces: the incoming document has
duplicate-free line names and duplicate-free person ids per container, the
stored line names are duplicate-free, and every incoming person whose id
matches a stored person of the same container already carries that stored
person's name (matched people keep their stored name — the save never
renames them).  Then saving and loading returns the same config field
values, the same multiset of (line name, time) pairs, the same multiset of
person names per line, and the same multiset of wait-queue names as the
incoming document. -/
theorem round_trip_modulo_ids (state : StateData) (db : DBState)
    (cd : ConfigData) (ver ts : Nat) (hc : state.config = some cd)
    (hwf : db.WF) (hn : (db.lines.map (fun l => l.name)).Nodup)
    (hds : ((cd.lines.getD []).map (fun ld => ld.name)).Nodup)
    (hpids : ∀ ld ∈ cd.lines.getD [],
      ((ld.people.getD []).map (fun pd => pd.id)).Nodup)
    (hqids : ((cd.generalWaitQueue.getD []).map (fun pd => pd.id)).Nodup)
    (hagreeP : ∀ ld ∈ cd.lines.getD [], ∀ l ∈ db.lines, l.name = ld.name →
      ∀ p ∈ db.people, p.line_id = l.id →
        ∀ pd ∈ ld.people.getD [], p.id = pd.id → p.name = pd.name)
    (hagreeQ : ∀ g ∈ db.general_wait_queue,
      ∀ pd ∈ cd.generalWaitQueue.getD [], g.id = pd.id → g.name = pd.name) :
    (∀ s, cd.sessionDuration = some s →
      (get_state_from_db (applyStateDiff state db) ver ts).1.config.sessionDuration = s) ∧
    (∀ s, cd.alarmInterval = some s →
      (get_state_from_db (applyStateDiff state db) ver ts).1.config.alarmInterval = s) ∧
    (∀ s, cd.maxPeoplePerLine = some s →
      (get_state_from_db (applyStateDiff state db) ver ts).1.config.maxPeoplePerLine = s) ∧
    (∀ b, cd.blinkBeforeStart = some b →
      (get_state_from_db (applyStateDiff state db) ver ts).1.config.blinkBeforeStart = b) ∧
    (∀ s, cd.blinkTime = some s →
      (get_state_from_db (applyStateDiff state db) ver ts).1.config.blinkTime = s) ∧
    (∀ s, cd.finishWindow = some s →
      (get_state_from_db (applyStateDiff state db) ver ts).1.config.finishWindow = s) ∧
    (∀ s, cd.autoReschedule = some s →
      (get_state_from_db (applyStateDiff state db) ver ts).1.config.autoReschedule = s) ∧
    ((get_state_from_db (applyStateDiff state db) ver ts).1.config.lines.map
        (fun lo => (lo.name, lo.time))).Perm
      ((cd.lines.getD []).map (fun ld => (ld.name, ld.time))) ∧
    (∀ ld ∈ cd.lines.getD [],
      ∀ lo ∈ (get_state_from_db (applyStateDiff state db) ver ts).1.config.lines,
        lo.name = ld.name →
        (lo.people.map (fun po => po.name)).Perm
          ((ld.people.getD []).map (fun pd => pd.name))) ∧
    ((get_state_from_db (applyStateDiff state db) ver ts).1.config.generalWaitQueue.map
        (fun po => po.name)).Perm
      ((cd.generalWaitQueue.getD []).map (fun pd => pd.name)) := by
  have hcfg : (applyStateDiff state db).config = some (configOfData cd) := by
    rw [applyStateDiff_config, hc]
    rfl
  have hdoc := get_state_from_db_some (applyStateDiff state db)
    (configOfData cd) ver ts hcfg
  rw [hdoc]
  refine ⟨?_, ?_, ?_, ?_, ?_, ?_, ?_, ?_, ?_, ?_⟩
  · intro s hs
    show (configOfData cd).session_duration = s
    rw [configOfData, hs]
    rfl
  · intro s hs
    show (configOfData cd).alarm_interval = s
    rw [configOfData, hs]
    rfl
  · intro s hs
    show (configOfData cd).max_people_per_line = s
    rw [configOfData, hs]
    rfl
  · intro b hb
    show (configOfData cd).blink_before_start = b
    rw [configOfData, hb]
    rfl
  · intro s hs
    show (configOfData cd).blink_time = s
    rw [configOfData, hs]
    rfl
  · intro s hs
    show (configOfData cd).finish_window = s
    rw [configOfData, hs]
    rfl
  · intro s hs
    show (configOfData cd).auto_reschedule = s
    rw [configOfData, hs]
    rfl
  · show ((linesOut (applyStateDiff state db)).map
      (fun lo => (lo.name, lo.time))).Perm _
    have hlo : (linesOut (applyStateDiff state db)).map
        (fun lo => (lo.name, lo.time)) =
        (applyStateDiff state db).lines.map (fun l => (l.name, l.time)) := by
      unfold linesOut
      rw [List.map_map]
      exact List.map_congr_left (fun l _ => rfl)
    rw [hlo]
    exact applyStateDiff_name_time_perm state db cd hc hwf hn hds
  · intro ld hld lo hlo hname
    show (lo.people.map (fun po => po.name)).Perm _
    have hlo2 : lo ∈ linesOut (applyStateDiff state db) := hlo
    rcases List.mem_map.1 hlo2 with ⟨l, hl, rfl⟩
    have hpeo : (((applyStateDiff state db).people.filter
        (fun p => p.line_id == l.id)).map
          (fun p => { id := p.id, name := p.name : PersonOut })).map
            (fun po => po.name) =
        ((applyStateDiff state db).people.filter
          (fun p => p.line_id == l.id)).map (fun p => p.name) := by
      rw [List.map_map]
      exact List.map_congr_left (fun p _ => rfl)
    show ((((applyStateDiff state db).people.filter
      (fun p => p.line_id == l.id)).map
        (fun p => { id := p.id, name := p.name : PersonOut })).map
          (fun po => po.name)).Perm _
    rw [hpeo]
    exact applyStateDiff_people_perm state db cd hc hwf hn hds ld hld
      (hpids ld hld) (hagreeP ld hld) l hl hname
  · show ((waitQueueOut (applyStateDiff state db)).map
      (fun po => po.name)).Perm _
    have hwq : (waitQueueOut (applyStateDiff state db)).map
        (fun po => po.name) =
        (applyStateDiff state db).general_wait_queue.map (fun g => g.name) := by
      unfold waitQueueOut
      rw [List.map_map]
      exact List.map_congr_left (fun g _ => rfl)
    rw [hwq]
    exact applyStateDiff_gwq_perm state db cd hc hwf.gwq_ids_nodup hqids
      hagreeQ

/-- A full config body: every field present, line "A" keeping Alice
(stored id 1, same name) and adding Bob, one wait-queue entry. -/
def cdFull : ConfigData :=
  { sessionDuration := some "25"
    alarmInterval := some "7"
    maxPeoplePerLine := some "12"
    blinkBeforeStart := some true
    blinkTime := some "3"
    finishWindow := some "4"
    autoReschedule := some "on"
    lines := some [⟨"A", "t2", some [⟨1, "Alice"⟩, ⟨5, "Bob"⟩]⟩]
    generalWaitQueue := some [⟨9, "Carol"⟩] }

/-- An incoming document exercising the amended round-trip. -/
def payloadFull : StateData :=
  { version := none, config := some cdFull, toplevel := ConfigData.empty }

theorem round_trip_modulo_ids_witness :
    (get_state_from_db (applyStateDiff payloadFull dbA) 1 0).1.config.sessionDuration
      = "25" ∧
    ((get_state_from_db (applyStateDiff payloadFull dbA) 1 0).1.config.lines.map
        (fun lo => (lo.name, lo.time))).Perm [("A", "t2")] ∧
    ((get_state_from_db (applyStateDiff payloadFull dbA) 1 0).1.config.generalWaitQueue.map
        (fun po => po.name)).Perm ["Carol"] := by
  have h := round_trip_modulo_ids payloadFull dbA cdFull 1 0 rfl
    ⟨by decide, by decide, by decide, by decide, by decide, by decide,
      by decide⟩
    (by decide) (by decide) (by decide) (by decide) (by decide) (by decide)
  exact ⟨h.1 "25" rfl, h.2.2.2.2.2.2.2.1, h.2.2.2.2.2.2.2.2.2⟩

/-- **C9.** Cascade delete: a committed save whose incoming document omits
a stored line's name removes that line and every person row referencing it
— no orphan person row remains. -/
theorem cascade_delete (state : StateData) (db : DBState) (cd : ConfigData)
    (ver ver1 : Nat) (cv : Option Int) (db1 : DBState)
    (hc : state.config = some cd) (hwf : db.WF)
    (hn : (db.lines.map (fun l => l.name)).Nodup)
    (hds : ((cd.lines.getD []).map (fun ld => ld.name)).Nodup)
    (hsave : save_state_to_db state db ver cv true = Except.ok (db1, ver1))
    (l : Line) (hl : l ∈ db.lines)
    (homit : ∀ ld ∈ cd.lines.getD [], ld.name ≠ l.name) :
    (∀ x ∈ db1.lines, x.id ≠ l.id ∧ x.name ≠ l.name) ∧
    (∀ p ∈ db1.people, p.line_id ≠ l.id) := by
  have hdb1 : db1 = applyStateDiff state db := by
    unfold save_state_to_db at hsave
    split at hsave
    · exact absurd hsave (by simp)
    · simp at hsave
      exact hsave.1.symm
  subst hdb1
  constructor
  · intro x hx
    rw [applyStateDiff_lines_eq state db cd hc hwf hn hds] at hx
    rcases List.mem_append.1 hx with hx1 | hx2
    · rcases List.mem_map.1 hx1 with ⟨x0, hx0, rfl⟩
      rw [List.mem_filter] at hx0
      obtain ⟨hx0m, hx0k⟩ := hx0
      rw [List.any_eq_true] at hx0k
      obtain ⟨ld, hld, hldb⟩ := hx0k
      constructor
      · rw [updTime_id]
        intro he
        have hxl : x0 = l := eq_of_nodup_key (fun y => y.id)
          hwf.lines_ids_nodup hx0m hl he
        subst hxl
        exact homit ld hld (by simpa using hldb)
      · rw [updTime_name]
        intro he
        have hxl : x0 = l := eq_of_nodup_key (fun y => y.name) hn hx0m hl he
        subst hxl
        exact homit ld hld (by simpa using hldb)
    · obtain ⟨hge, ld, hld, -, hname, -⟩ := freshLines_mem _ _ _ x hx2
      constructor
      · have := hwf.lines_id_lt l hl
        omega
      · rw [hname]
        exact homit ld hld
  · intro p hp hpl
    rw [applyStateDiff_decomp state db cd hc,
      (reconcileWaitQueue_frame _ _).2.1] at hp
    have hwf1 : DBState.WF { db with config := some (configOfData cd) } :=
      ⟨hwf.lines_ids_nodup, hwf.lines_id_lt, hwf.people_ids_nodup,
        hwf.people_id_lt, hwf.people_line_lt, hwf.gwq_ids_nodup,
        hwf.gwq_id_lt⟩
    have hinv := foldInv_after_delete
      { db with config := some (configOfData cd) } db.lines
      (cd.lines.getD []) rfl hwf1 hn hds
    have hframe := upsertFold_people_frame (linesDict db.lines)
      (cd.lines.getD []) _ l.id hinv
      (by
        rw [(deleteStaleLines_counters _ _ _).1]
        exact hwf.lines_id_lt l hl)
      (by
        intro ld hld l' hdg he
        rw [dictGet_linesDict hn] at hdg
        have hl'mem : l' ∈ db.lines := List.mem_of_find?_eq_some hdg
        have hl'name : l'.name = ld.name := by
          have := List.find?_some hdg
          simpa using this
        have hll : l = l' := eq_of_nodup_key (fun y => y.id)
          hwf.lines_ids_nodup hl hl'mem he
        subst hll
        exact homit ld hld hl'name.symm)
    have hmem : p ∈ ((cd.lines.getD []).foldl
        (upsertLine (linesDict db.lines))
        (deleteStaleLines { db with config := some (configOfData cd) }
          (linesDict db.lines) (cd.lines.getD []))).people.filter
          (fun q => q.line_id == l.id) :=
      List.mem_filter.2 ⟨hp, by simp [hpl]⟩
    rw [hframe] at hmem
    rw [List.mem_filter] at hmem
    obtain ⟨hm1, -⟩ := hmem
    rw [deleteStaleLines_people, List.mem_filter] at hm1
    obtain ⟨-, hall⟩ := hm1
    rw [List.all_eq_true] at hall
    have hentry : ((l.name, l) : String × Line) ∈ linesDict db.lines := by
      rw [linesDict_eq_map hn]
      exact List.mem_map_of_mem _ hl
    have hinst := hall _ hentry
    rw [Bool.or_eq_true] at hinst
    rcases hinst with hinst | hinst
    · rw [List.any_eq_true] at hinst
      obtain ⟨ld, hld, hldb⟩ := hinst
      exact homit ld hld (by simpa using hldb)
    · simp [hpl] at hinst

/-- A store holding lines "A" and "B", each with one person. -/
def dbAB : DBState :=
  { config := some defaultConfig
    lines := [⟨1, "A", "tA"⟩, ⟨2, "B", "tB"⟩]
    people := [⟨1, 1, "Alice"⟩, ⟨2, 2, "Bob"⟩]
    general_wait_queue := []
    next_line_id := 3, next_person_id := 3, next_gwq_id := 1 }

/-- A config body mentioning only line "A" (line "B" is omitted). -/
def cdOnlyA : ConfigData :=
  { ConfigData.empty with
    lines := some [⟨"A", "tA", some [⟨1, "Alice"⟩]⟩] }

/-- The payload carrying `cdOnlyA`. -/
def payloadOnlyA : StateData :=
  { version := none, config := some cdOnlyA, toplevel := ConfigData.empty }

theorem cascade_delete_witness :
    (∀ x ∈ (applyStateDiff payloadOnlyA dbAB).lines,
      x.id ≠ (2 : Nat) ∧ x.name ≠ "B") ∧
    (∀ p ∈ (applyStateDiff payloadOnlyA dbAB).people,
      p.line_id ≠ (2 : Nat)) := by
  have h := cascade_delete payloadOnlyA dbAB cdOnlyA 0 1 none
    (applyStateDiff payloadOnlyA dbAB) rfl
    ⟨by decide, by decide, by decide, by decide, by decide, by decide,
      by decide⟩
    (by decide) (by decide) rfl ⟨2, "B", "tB"⟩ (by decide) (by decide)
  exact h

/-! ## No-op save machinery (for idempotence) -/

theorem addedPeople_eq_nil (existing : List Person) (lid : Nat) :
    ∀ (ps : List PersonData) (n : Nat),
      (∀ pd ∈ ps, existing.any (fun e => e.id == pd.id) = true) →
      addedPeople existing ps lid n = [] := by
  intro ps
  induction ps with
  | nil => intro n _; rfl
  | cons pd t ih =>
    intro n h
    rw [addedPeople, if_pos (h pd (List.mem_cons_self pd t))]
    exact ih n (fun x hx => h x (List.mem_cons_of_mem pd hx))

theorem addedGwq_eq_nil (existing : List GeneralWaitQueue) :
    ∀ (ps : List PersonData) (n : Nat),
      (∀ pd ∈ ps, existing.any (fun e => e.id == pd.id) = true) →
      addedGwq existing ps n = [] := by
  intro ps
  induction ps with
  | nil => intro n _; rfl
  | cons pd t ih =>
    intro n h
    rw [addedGwq, if_pos (h pd (List.mem_cons_self pd t))]
    exact ih n (fun x hx => h x (List.mem_cons_of_mem pd hx))

/-- The people loop changes nothing when every stored person of the line is
matched by an incoming id and every incoming id matches a stored person. -/
theorem reconcileLinePeople_noop (db : DBState) (lid : Nat)
    (ps : List PersonData)
    (h1 : ∀ p ∈ db.people, p.line_id = lid →
      ps.any (fun nd => nd.id == p.id) = true)
    (h2 : ∀ pd ∈ ps, (db.people.filter (fun p => p.line_id == lid)).any
      (fun e => e.id == pd.id) = true) :
    reconcileLinePeople db lid ps = db := by
  rw [reconcileLinePeople_eq, addedPeople_eq_nil _ _ _ _ h2]
  rw [List.append_nil]
  have hfe : db.people.filter (fun p =>
      p.line_id != lid || ps.any (fun nd => nd.id == p.id)) = db.people := by
    apply List.filter_eq_self.2
    intro p hp
    by_cases hpl : p.line_id = lid
    · simp [h1 p hp hpl]
    · simp [hpl]
  rw [hfe]
  rfl

/-- The wait-queue loop changes nothing under the same matching. -/
theorem reconcileWaitQueue_noop (db : DBState) (q : List PersonData)
    (h1 : ∀ g ∈ db.general_wait_queue,
      q.any (fun nd => nd.id == g.id) = true)
    (h2 : ∀ pd ∈ q, db.general_wait_queue.any
      (fun e => e.id == pd.id) = true) :
    reconcileWaitQueue db q = db := by
  rw [reconcileWaitQueue_eq, addedGwq_eq_nil _ _ _ h2]
  rw [List.append_nil]
  have hfe : db.general_wait_queue.filter (fun p =>
      q.any (fun nd => nd.id == p.id)) = db.general_wait_queue :=
    List.filter_eq_self.2 (fun g hg => h1 g hg)
  rw [hfe]
  rfl

/-- One upsert step changes nothing when the line exists with the incoming
time and its people are id-matched in both directions. -/
theorem upsertLine_noop (dict : List (String × Line)) (db : DBState)
    (ld : LineData) (l : Line) (h : dictGet dict ld.name = some l)
    (hlmem : l ∈ db.lines)
    (hids : (db.lines.map (fun x => x.id)).Nodup)
    (htime : l.time = ld.time)
    (h1 : ∀ p ∈ db.people, p.line_id = l.id →
      (ld.people.getD []).any (fun nd => nd.id == p.id) = true)
    (h2 : ∀ pd ∈ ld.people.getD [],
      (db.people.filter (fun p => p.line_id == l.id)).any
        (fun e => e.id == pd.id) = true) :
    upsertLine dict db ld = db := by
  unfold upsertLine
  rw [h]
  show reconcileLinePeople _ _ _ = db
  have hmap : db.lines.map (fun x =>
      if x.id == l.id then { x with time := ld.time } else x) = db.lines := by
    have hpt : ∀ x ∈ db.lines,
        (if x.id == l.id then { x with time := ld.time } else x) = x := by
      intro x hx
      by_cases hid : (x.id == l.id) = true
      · have hxl : x = l := eq_of_nodup_key (fun y => y.id) hids hx hlmem
          (by simpa using hid)
        subst hxl
        rw [if_pos hid, ← htime]
      · rw [if_neg hid]
    rw [List.map_congr_left hpt, List.map_id']
  rw [hmap]
  exact reconcileLinePeople_noop db l.id (ld.people.getD []) h1 h2

theorem foldl_fixpoint {α : Type} (f : DBState → α → DBState) :
    ∀ (l : List α) (db : DBState), (∀ a ∈ l, f db a = db) →
      l.foldl f db = db := by
  intro l
  induction l with
  | nil => intro db _; rfl
  | cons a t ih =>
    intro db h
    rw [List.foldl_cons, h a (List.mem_cons_self a t)]
    exact ih db (fun b hb => h b (List.mem_cons_of_mem a hb))

theorem freshLines_mem_of (dict : List (String × Line)) :
    ∀ (ds : List LineData) (n : Nat) (ld : LineData), ld ∈ ds →
      dictGet dict ld.name = none →
      ∃ x ∈ freshLines dict ds n, x.name = ld.name := by
  intro ds
  induction ds with
  | nil =>
    intro n ld hld
    cases hld
  | cons ld0 t ih =>
    intro n ld hld hnone
    rcases List.mem_cons.1 hld with rfl | hld2
    · rw [freshLines, hnone]
      exact ⟨⟨n, ld.name, ld.time⟩, List.mem_cons_self _ _, rfl⟩
    · rcases h0 : dictGet dict ld0.name with _ | l0
      · rw [freshLines, h0]
        obtain ⟨x, hx, hxn⟩ := ih (n + 1) ld hld2 hnone
        exact ⟨x, List.mem_cons_of_mem _ hx, hxn⟩
      · rw [freshLines, h0]
        exact ih n ld hld2 hnone

/-- A payload whose person carries a client id (999) that does not match
the surrogate id the first save stores. -/
def payloadNewId : StateData :=
  { version := none
    config := some { ConfigData.empty with
      lines := some [⟨"A", "t", some [⟨999, "Alice"⟩]⟩] }
    toplevel := ConfigData.empty }

/-- **C4, counterexample.** Applying the same document twice is NOT
idempotent in general: the first save stores a person under a fresh
surrogate id (1), so on the second save of the identical document the
incoming id 999 matches nothing — the stored person is deleted and an
equivalent row is re-inserted under the next surrogate id (2).  The
person's identity is not stable across the two reconciliation calls. -/
theorem idempotence_counterexample :
    (applyStateDiff payloadNewId emptyDB).people =
      [{ id := 1, line_id := 1, name := "Alice" }] ∧
    (applyStateDiff payloadNewId (applyStateDiff payloadNewId emptyDB)).people =
      [{ id := 2, line_id := 1, name := "Alice" }] ∧
    ¬(applyStateDiff payloadNewId (applyStateDiff payloadNewId emptyDB)).people
      = (applyStateDiff payloadNewId emptyDB).people := by
  refine ⟨rfl, rfl, ?_⟩
  decide

/-- **C4, amended.** The second save of the identical document performs no
additional deletions or insertions exactly when the incoming ids coincide
with the stored ids after the first save: if every person stored by the
first save is id-matched by an incoming entry of its line and vice versa
(and likewise for the wait queue), the second save returns the stored
state unchanged — no row is deleted, inserted, or reallocated.  (When an
incoming id differs from the stored surrogate id, the counterexample shows
the matched person is instead deleted and re-inserted.) -/
theorem idempotent_second_save (state : StateData) (db : DBState)
    (cd : ConfigData) (hc : state.config = some cd) (hwf : db.WF)
    (hn : (db.lines.map (fun l => l.name)).Nodup)
    (hds : ((cd.lines.getD []).map (fun ld => ld.name)).Nodup)
    (hmatchP : ∀ ld ∈ cd.lines.getD [],
      ∀ x ∈ (applyStateDiff state db).lines, x.name = ld.name →
        (∀ p ∈ (applyStateDiff state db).people, p.line_id = x.id →
          ((ld.people.getD []).any (fun nd => nd.id == p.id)) = true) ∧
        (∀ pd ∈ ld.people.getD [],
          (((applyStateDiff state db).people.filter
            (fun p => p.line_id == x.id)).any
              (fun e => e.id == pd.id)) = true))
    (hmatchQ1 : ∀ g ∈ (applyStateDiff state db).general_wait_queue,
      ((cd.generalWaitQueue.getD []).any (fun nd => nd.id == g.id)) = true)
    (hmatchQ2 : ∀ pd ∈ cd.generalWaitQueue.getD [],
      ((applyStateDiff state db).general_wait_queue.any
        (fun e => e.id == pd.id)) = true) :
    applyStateDiff state (applyStateDiff state db) =
      applyStateDiff state db := by
  have hlines1 := applyStateDiff_lines_eq state db cd hc hwf hn hds
  have hG3 : ∀ x ∈ (applyStateDiff state db).lines,
      ∃ ld ∈ cd.lines.getD [], ld.name = x.name ∧ x.time = ld.time := by
    intro x hx
    rw [hlines1] at hx
    rcases List.mem_append.1 hx with hx1 | hx2
    · rcases List.mem_map.1 hx1 with ⟨x0, hx0, rfl⟩
      rw [List.mem_filter] at hx0
      obtain ⟨hx0m, hx0k⟩ := hx0
      rw [List.any_eq_true] at hx0k
      obtain ⟨ld0, hld0, hld0b⟩ := hx0k
      rcases hf : (cd.lines.getD []).find? (fun ld => ld.name == x0.name)
        with _ | ld1
      · have := List.find?_eq_none.1 hf ld0 hld0
        exact absurd hld0b this
      · have hld1m : ld1 ∈ cd.lines.getD [] := List.mem_of_find?_eq_some hf
        have hld1n : ld1.name = x0.name := by
          have := List.find?_some hf
          simpa using this
        rw [updTime_eq_of_find hf]
        exact ⟨ld1, hld1m, hld1n, rfl⟩
    · obtain ⟨-, ld, hld, -, hname, htime⟩ := freshLines_mem _ _ _ x hx2
      exact ⟨ld, hld, hname.symm, htime⟩
  have hkn : ((db.lines.filter (fun l =>
      (cd.lines.getD []).any (fun ld => ld.name == l.name))).map
        (updTime (cd.lines.getD []))).map (fun l => l.name) =
      (db.lines.filter (fun l =>
        (cd.lines.getD []).any (fun ld => ld.name == l.name))).map
          (fun l => l.name) := by
    rw [List.map_map]
    exact List.map_congr_left (fun x _ => updTime_name _ x)
  have hki : ((db.lines.filter (fun l =>
      (cd.lines.getD []).any (fun ld => ld.name == l.name))).map
        (updTime (cd.lines.getD []))).map (fun l => l.id) =
      (db.lines.filter (fun l =>
        (cd.lines.getD []).any (fun ld => ld.name == l.name))).map
          (fun l => l.id) := by
    rw [List.map_map]
    exact List.map_congr_left (fun x _ => updTime_id _ x)
  have hG1 : ((applyStateDiff state db).lines.map (fun l => l.name)).Nodup := by
    rw [hlines1, List.map_append, hkn]
    refine List.Nodup.append
      (((List.filter_sublist db.lines).map _).nodup hn) ?_ ?_
    · rw [freshLines_names]
      exact ((List.filter_sublist (cd.lines.getD [])).map _).nodup hds
    · intro a ha hb
      rcases List.mem_map.1 ha with ⟨x, hx, rfl⟩
      rcases List.mem_map.1 hb with ⟨y, hy, hyn⟩
      obtain ⟨-, ld, hld, hnone, hname2, -⟩ := freshLines_mem _ _ _ y hy
      rw [dictGet_linesDict hn] at hnone
      have hno := List.find?_eq_none.1 hnone x (List.mem_of_mem_filter hx)
      simp at hno
      exact hno (by rw [← hyn]; exact hname2)
  have hG2 : ((applyStateDiff state db).lines.map (fun l => l.id)).Nodup := by
    rw [hlines1, List.map_append, hki]
    refine List.Nodup.append
      (((List.filter_sublist db.lines).map _).nodup hwf.lines_ids_nodup)
      ?_ ?_
    · rw [freshLines_ids]
      exact List.nodup_range' _ _
    · intro a ha hb
      rcases List.mem_map.1 ha with ⟨x, hx, rfl⟩
      have hxlt := hwf.lines_id_lt x (List.mem_of_mem_filter hx)
      rw [freshLines_ids] at hb
      have := (List.mem_range'_1.1 hb).1
      omega
  have hG4 : ∀ ld ∈ cd.lines.getD [],
      ∃ x ∈ (applyStateDiff state db).lines, x.name = ld.name := by
    intro ld hld
    rw [hlines1]
    rcases hdg : dictGet (linesDict db.lines) ld.name with _ | x
    · obtain ⟨x, hx, hxn⟩ := freshLines_mem_of (linesDict db.lines)
        (cd.lines.getD []) db.next_line_id ld hld hdg
      exact ⟨x, List.mem_append.2 (Or.inr hx), hxn⟩
    · rw [dictGet_linesDict hn] at hdg
      have hxm : x ∈ db.lines := List.mem_of_find?_eq_some hdg
      have hxn : x.name = ld.name := by
        have := List.find?_some hdg
        simpa using this
      have hxf : x ∈ db.lines.filter (fun l =>
          (cd.lines.getD []).any (fun ld => ld.name == l.name)) := by
        rw [List.mem_filter]
        refine ⟨hxm, ?_⟩
        rw [List.any_eq_true]
        exact ⟨ld, hld, by simp [hxn]⟩
      refine ⟨updTime (cd.lines.getD []) x,
        List.mem_append.2 (Or.inl (List.mem_map_of_mem _ hxf)), ?_⟩
      rw [updTime_name]
      exact hxn
  have hcfg1 : (applyStateDiff state db).config = some (configOfData cd) := by
    rw [applyStateDiff_config, hc]
    rfl
  rw [applyStateDiff_decomp state (applyStateDiff state db) cd hc]
  have hself : ({ applyStateDiff state db with
      config := some (configOfData cd) } : DBState) =
      applyStateDiff state db := by
    rw [← hcfg1]
  rw [hself]
  have hdel : deleteStaleLines (applyStateDiff state db)
      (linesDict (applyStateDiff state db).lines) (cd.lines.getD []) =
      applyStateDiff state db := by
    apply deleteStaleLines_eq_self
    intro e he
    rw [linesDict_eq_map hG1] at he
    rcases List.mem_map.1 he with ⟨x, hx, rfl⟩
    obtain ⟨ld, hld, hldn, -⟩ := hG3 x hx
    rw [List.any_eq_true]
    exact ⟨ld, hld, by simp [hldn]⟩
  rw [hdel]
  have hfold : (cd.lines.getD []).foldl
      (upsertLine (linesDict (applyStateDiff state db).lines))
      (applyStateDiff state db) = applyStateDiff state db := by
    apply foldl_fixpoint
    intro ld hld
    obtain ⟨x, hxm, hxn⟩ := hG4 ld hld
    have hfind : (applyStateDiff state db).lines.find?
        (fun y => y.name == ld.name) = some x :=
      find?_key_eq (fun y => y.name) hG1 hxm hxn
    have hdg : dictGet (linesDict (applyStateDiff state db).lines) ld.name =
        some x := by
      rw [dictGet_linesDict hG1, hfind]
    obtain ⟨ld2, hld2, hld2n, hld2t⟩ := hG3 x hxm
    have hldld2 : ld2 = ld := eq_of_nodup_key (fun y => y.name) hds hld2 hld
      (by
        show ld2.name = ld.name
        rw [hld2n, hxn])
    subst hldld2
    obtain ⟨hm1, hm2⟩ := hmatchP ld2 hld x hxm hxn
    exact upsertLine_noop _ _ ld2 x hdg hxm hG2 hld2t hm1 hm2
  rw [hfold]
  exact reconcileWaitQueue_noop _ _ hmatchQ1 hmatchQ2

/-- A config body whose client-supplied ids coincide with the surrogate
ids a first save from the fresh store assigns. -/
def cdIdMatch : ConfigData :=
  { ConfigData.empty with
    lines := some [⟨"A", "t", some [⟨1, "Alice"⟩]⟩]
    generalWaitQueue := some [⟨1, "Carol"⟩] }

/-- The payload carrying `cdIdMatch`. -/
def payloadIdMatch : StateData :=
  { version := none, config := some cdIdMatch, toplevel := ConfigData.empty }

theorem idempotent_second_save_witness :
    applyStateDiff payloadIdMatch (applyStateDiff payloadIdMatch emptyDB) =
      applyStateDiff payloadIdMatch emptyDB :=
  idempotent_second_save payloadIdMatch emptyDB cdIdMatch rfl
    ⟨by decide, by decide, by decide, by decide, by decide, by decide,
      by decide⟩
    (by decide) (by decide) (by decide) (by decide) (by decide)

end SpeedChat
